import Mathlib

/-!
# Verification of the compose-validator core

A shallow embedding of the compose-validator repository (Go) in Lean 4:
the document model (`Value`, `Service`, `ComposeFile`), the policy
(`Config`), the compliance checker (`Validate`, `validateFieldOrder`,
`validateAlphabetization`) and the rewriter (`fixService`, `FixBytes`),
together with theorems settling the specification's claims.

Modelling conventions:
* Go's `interface{}` values decoded from YAML become the inductive `Value`
  (scalars, sequences, string-keyed mappings).
* Go's `map[string]interface{}` is modelled as an association list
  `List (String × Value)`: lookup by key, `delete` removes the entry,
  assignment updates in place when the key is present and appends
  otherwise.  Go gives maps no iteration order — `range` order is
  randomized, and `yaml.Marshal` of a map chooses its own key order — so
  the list order is a determinization of the program, not a feature of
  it; it is chosen as insertion order because the repository's own tests
  assume exactly that ("Go 1.12+ preserves map iteration order" in
  `TestIsFieldOrderCorrect` and `TestAlphabetizeEnvironment_Map`).
  Wherever a claim's truth would depend on which order the runtime
  presents a map in, the theorems below either quantify over every
  presentation (all permutations, or all lookup-equal re-presentations)
  of the map, or carry a hypothesis excluding the map-valued special
  fields the repository itself documents as unreliable for this reason;
  order-specific equations on the model appear only as closed forms of
  the code's construction sequence, never as claims about runtime
  behaviour.
* `sort.Slice` (an unstable sort in Go) is modelled deterministically as a
  stable insertion sort; the repository's tests pin down exactly this
  behaviour on their inputs.
* YAML text round-trips (`yaml.Marshal` / `yaml.Unmarshal`) are modelled
  as the identity on the document model; textual formatting is a declared
  non-goal of the specification.
* Source-position metadata (line/column) is not modelled; the fields are
  kept and set to zero.
-/

/-- A decoded YAML value (Go `interface{}` after `yaml.Unmarshal`):
scalar (string / bool / integer / null), sequence, or string-keyed
mapping.  Mappings keep insertion order (association list). -/
inductive Value where
  | str (s : String)
  | boolean (b : Bool)
  | intv (n : Int)
  | null
  | seq (items : List Value)
  | map (entries : List (String × Value))

mutual

/-- Boolean equality on `Value` (Go `!=` on `interface{}` values). -/
def valueBeq : Value → Value → Bool
  | .str a, .str b => a == b
  | .boolean a, .boolean b => a == b
  | .intv a, .intv b => a == b
  | .null, .null => true
  | .seq a, .seq b => valueListBeq a b
  | .map a, .map b => valueMapBeq a b
  | _, _ => false

/-- Boolean equality on lists of `Value`. -/
def valueListBeq : List Value → List Value → Bool
  | [], [] => true
  | x :: xs, y :: ys => valueBeq x y && valueListBeq xs ys
  | _, _ => false

/-- Boolean equality on association lists over `Value`. -/
def valueMapBeq : List (String × Value) → List (String × Value) → Bool
  | [], [] => true
  | (k₁, v₁) :: xs, (k₂, v₂) :: ys => k₁ == k₂ && valueBeq v₁ v₂ && valueMapBeq xs ys
  | _, _ => false

end

mutual

theorem valueBeq_iff : ∀ a b : Value, valueBeq a b = true ↔ a = b
  | .str _, b => by cases b <;> simp [valueBeq]
  | .boolean _, b => by cases b <;> simp [valueBeq]
  | .intv _, b => by cases b <;> simp [valueBeq]
  | .null, b => by cases b <;> simp [valueBeq]
  | .seq xs, b => by
      cases b <;> simp [valueBeq]
      exact valueListBeq_iff xs _
  | .map xs, b => by
      cases b <;> simp [valueBeq]
      exact valueMapBeq_iff xs _

theorem valueListBeq_iff : ∀ xs ys : List Value, valueListBeq xs ys = true ↔ xs = ys
  | [], ys => by cases ys <;> simp [valueListBeq]
  | x :: xs, ys => by
      cases ys with
      | nil => simp [valueListBeq]
      | cons y ys =>
        simp [valueListBeq, Bool.and_eq_true, valueBeq_iff x y, valueListBeq_iff xs ys]

theorem valueMapBeq_iff : ∀ xs ys : List (String × Value), valueMapBeq xs ys = true ↔ xs = ys
  | [], ys => by cases ys <;> simp [valueMapBeq]
  | (k₁, v₁) :: xs, ys => by
      cases ys with
      | nil => simp [valueMapBeq]
      | cons y ys =>
        obtain ⟨k₂, v₂⟩ := y
        simp [valueMapBeq, Bool.and_eq_true, valueBeq_iff v₁ v₂, valueMapBeq_iff xs ys,
          and_assoc]

end

instance : DecidableEq Value := fun a b => decidable_of_iff _ (valueBeq_iff a b)

/-! ## Insertion-ordered string maps (Go `map[string]interface{}`) -/

/-- The association-list maps used throughout; `svcMap` in the Go code. -/
abbrev SvcMap := List (String × Value)

/-- Go map deletion `delete(m, k)`. -/
def eraseK (m : SvcMap) (k : String) : SvcMap :=
  m.filter (fun p => !(p.1 == k))

/-- Go map assignment `m[k] = v`: update in place when present, append
otherwise (insertion-ordered model). -/
def setK (m : SvcMap) (k : String) (v : Value) : SvcMap :=
  if m.any (fun p => p.1 == k) then
    m.map (fun p => if p.1 == k then (p.1, v) else p)
  else
    m ++ [(k, v)]

/-! ## Policy (`internal/config`) -/

/-- `config.AlphabetizationRules`. -/
structure AlphabetizationRules where
  environment : Bool
  volumes : Bool
  labels : Bool
deriving DecidableEq, Repr

/-- `config.ServiceOverride`. -/
structure ServiceOverride where
  FieldOrder : List String
deriving DecidableEq, Repr

/-- `config.Config` (the `Exclude` patterns play no role in the claims
but are kept for completeness). -/
structure Config where
  FieldOrder : List String
  Alphabetization : AlphabetizationRules
  Strict : Bool
  Exclude : List String
  ServiceOverrides : List (String × ServiceOverride)
deriving DecidableEq, Repr

/-- `config.DefaultFieldOrder`: the built-in 17-field canonical order. -/
def DefaultFieldOrder : List String :=
  [ "container_name", "image", "build",
    "user",
    "environment", "env_file",
    "networks", "network_mode", "ports", "devices",
    "healthcheck",
    "restart", "cap_add", "privileged", "extra_hosts",
    "volumes",
    "labels" ]

/-- `config.NewDefaultConfig`. -/
def NewDefaultConfig : Config :=
  { FieldOrder := DefaultFieldOrder
    Alphabetization := { environment := true, volumes := true, labels := true }
    Strict := false
    Exclude := []
    ServiceOverrides := [] }

/-- `Config.GetFieldOrder`: service override when registered and
non-empty, the global canonical order otherwise. -/
def Config.GetFieldOrder (c : Config) (serviceName : String) : List String :=
  match List.lookup serviceName c.ServiceOverrides with
  | some override => if override.FieldOrder.length > 0 then override.FieldOrder else c.FieldOrder
  | none => c.FieldOrder

/-- `Config.ShouldAlphabetize`. -/
def Config.ShouldAlphabetize (c : Config) (field : String) : Bool :=
  match field with
  | "environment" => c.Alphabetization.environment
  | "volumes" => c.Alphabetization.volumes
  | "labels" => c.Alphabetization.labels
  | _ => false

/-! ## Parsed services (`internal/parser`) -/

/-- `parser.Service`: name, decoded config map, original field order, and
source position (not modelled, kept as numbers). -/
structure Service where
  Name : String
  Config : SvcMap
  FieldOrder : List String
  Line : Int
  Column : Int
deriving DecidableEq

/-- `parser.ComposeFile`, reduced to what the checker consumes: the path
and the decoded body of each YAML document (`none` for an empty body). -/
structure ComposeFile where
  Path : String
  Documents : List (Option Value)
deriving DecidableEq

/-- Whether a `Value` is a mapping node (`val.Value.(*ast.MappingNode)`). -/
def Value.isMapNode : Value → Bool
  | .map _ => true
  | _ => false

/-- The entries of a mapping node (empty for non-mappings; used only
under `isMapNode`). -/
def Value.mapEntries : Value → List (String × Value)
  | .map m => m
  | _ => []

/-- The `services` mapping of one document body: the first `services` key
whose value is a mapping (`GetServices`, document loop). -/
def servicesOfDoc : Option Value → Option (List (String × Value))
  | some (.map mapping) =>
      (mapping.find? (fun p => p.1 == "services" && p.2.isMapNode)).map
        (fun p => p.2.mapEntries)
  | _ => none

/-- One service's `Service` record built from its mapping node
(`GetServices`, field loop): `FieldOrder` lists every key in source
order, `Config` is the key-to-value map (duplicates overwrite). -/
def serviceOfFields (svcName : String) (fields : List (String × Value)) : Service :=
  { Name := svcName
    Config := fields.foldl (fun acc p => setK acc p.1 p.2) []
    FieldOrder := fields.map (fun p => p.1)
    Line := 0
    Column := 0 }

/-- The services of one document in declaration order (non-mapping
service values are skipped). -/
def docServices : Option Value → List (String × Service)
  | body =>
      match servicesOfDoc body with
      | some entries =>
          entries.filterMap (fun p =>
            match p.2 with
            | .map fields => some (p.1, serviceOfFields p.1 fields)
            | _ => none)
      | none => []

/-- Go map assignment for the flattened services map. -/
def setService (m : List (String × Service)) (k : String) (v : Service) :
    List (String × Service) :=
  if m.any (fun p => p.1 == k) then
    m.map (fun p => if p.1 == k then (p.1, v) else p)
  else
    m ++ [(k, v)]

/-- `ComposeFile.GetServices`: all documents' services flattened into one
name-to-service map; later documents overwrite earlier ones. -/
def ComposeFile.GetServices (cf : ComposeFile) : List (String × Service) :=
  cf.Documents.foldl
    (fun services body =>
      (docServices body).foldl (fun acc p => setService acc p.1 p.2) services)
    []

/-! ## Compliance checker (`internal/validator`) -/

/-- `validator.Violation`. -/
structure Violation where
  type : String
  Service : String
  Field : String
  Message : String
  Expected : String
  Actual : String
  Line : Int
  Column : Int
deriving DecidableEq, Repr

/-- `validator.ValidationResult`. -/
structure ValidationResult where
  File : String
  Valid : Bool
  Violations : List Violation
deriving DecidableEq, Repr

/-- `validator.isInFieldOrder`. -/
def isInFieldOrder (field : String) (fieldOrder : List String) : Bool :=
  fieldOrder.any (fun f => f == field)

/-- `validator.extractEnvKey`: the part of `"KEY=value"` before the first
`=` when that prefix is non-empty, the whole string otherwise; the first
key for single-entry mappings; `""` for other shapes. -/
def extractEnvKey : Value → String
  | .str v =>
      let pre := v.takeWhile (fun c => c != '=')
      if pre.isEmpty then v else pre
  | .map m =>
      match m with
      | [] => ""
      | (k, _) :: _ => k
  | _ => ""

/-- `validator.extractVolumeKey`: `strings.Split(v, ":")[0]`. -/
def extractVolumeKey : Value → String
  | .str v => v.takeWhile (fun c => c != ':')
  | _ => ""

/-- `validator.extractLabelKey` (same scheme as environment keys). -/
def extractLabelKey : Value → String
  | .str v =>
      let pre := v.takeWhile (fun c => c != '=')
      if pre.isEmpty then v else pre
  | .map m =>
      match m with
      | [] => ""
      | (k, _) :: _ => k
  | _ => ""

/-- One pass of the validator's in-place exchange sort: scanning
`j = i+1 .. n-1` and swapping whenever `lower(s[i]) > lower(s[j])`
returns the final element at position `i` together with the modified
tail. -/
def innerPass (h : String) : List String → String × List String
  | [] => (h, [])
  | t :: ts =>
      if t.toLower < h.toLower then
        let r := innerPass t ts
        (r.1, h :: r.2)
      else
        let r := innerPass h ts
        (r.1, t :: r.2)

theorem innerPass_snd_length (h : String) (l : List String) :
    (innerPass h l).2.length = l.length := by
  induction l generalizing h with
  | nil => rfl
  | cons t ts ih => by_cases hc : t.toLower < h.toLower <;> simp [innerPass, hc, ih]

/-- The validator's double-loop sort of the key list (`isAlphabetized`
and `isMapAlphabetized` share it), written as a recursive function: the
outer iteration fixes one position, the inner pass is `innerPass`. -/
def exchangeSort : List String → List String
  | [] => []
  | x :: xs =>
      let r := innerPass x xs
      r.1 :: exchangeSort r.2
termination_by l => l.length
decreasing_by simp [innerPass_snd_length]

/-- `validator.isAlphabetized`: extract the keys, sort a copy
case-insensitively, and compare with the original key sequence. -/
def isAlphabetized (items : List Value) (keyExtractor : Value → String) : Bool :=
  if items.length < 2 then true
  else
    let keys := items.map keyExtractor
    keys == exchangeSort keys

/-- `validator.isMapAlphabetized` (map keys in insertion order). -/
def isMapAlphabetized (m : List (String × Value)) : Bool :=
  if m.length < 2 then true
  else
    let keys := m.map (fun p => p.1)
    keys == exchangeSort keys

/-- `validator.validateFieldOrder`: the positional diff of the declared
field order against the canonical order, plus the strict-mode extras. -/
def validateFieldOrder (serviceName : String) (service : Service)
    (fieldOrder : List String) (cfg : Config) : List Violation :=
  let actualFields := service.FieldOrder.filter (fun field => isInFieldOrder field fieldOrder)
  let expectedFields := fieldOrder.filter (fun field => (List.lookup field service.Config).isSome)
  let orderViolations :=
    (actualFields.zip expectedFields).filterMap (fun p =>
      if p.1 ≠ p.2 then
        some { type := "order", Service := serviceName, Field := p.1
               Message := s!"field \x27{p.1}\x27 is out of order"
               Expected := p.2, Actual := p.1
               Line := service.Line, Column := service.Column }
      else none)
  let strictViolations :=
    if cfg.Strict then
      (service.FieldOrder.filter (fun field => !(isInFieldOrder field fieldOrder))).map
        (fun field =>
          { type := "order", Service := serviceName, Field := field
            Message := s!"field \x27{field}\x27 is not allowed in strict mode"
            Expected := "", Actual := "", Line := 0, Column := 0 })
    else []
  orderViolations ++ strictViolations

/-- The single alphabetization violation for one special field. -/
def alphaViolation (serviceName field message : String) (service : Service) : Violation :=
  { type := "alphabetization", Service := serviceName, Field := field
    Message := message, Expected := "", Actual := ""
    Line := service.Line, Column := 0 }

/-- The environment block of `validator.validateAlphabetization`. -/
def envAlphaViolations (serviceName : String) (service : Service)
    (cfg : Config) : List Violation :=
  if cfg.ShouldAlphabetize "environment" then
    match List.lookup "environment" service.Config with
    | some (.seq env) =>
        if !(isAlphabetized env extractEnvKey) then
          [alphaViolation serviceName "environment"
            "environment variables are not alphabetized" service]
        else []
    | some (.map envMap) =>
        if !(isMapAlphabetized envMap) then
          [alphaViolation serviceName "environment"
            "environment variables are not alphabetized" service]
        else []
    | _ => []
  else []

/-- The volumes block of `validator.validateAlphabetization`. -/
def volAlphaViolations (serviceName : String) (service : Service)
    (cfg : Config) : List Violation :=
  if cfg.ShouldAlphabetize "volumes" then
    match List.lookup "volumes" service.Config with
    | some (.seq vols) =>
        if !(isAlphabetized vols extractVolumeKey) then
          [alphaViolation serviceName "volumes"
            "volumes are not alphabetized by source path" service]
        else []
    | _ => []
  else []

/-- The labels block of `validator.validateAlphabetization`. -/
def labelAlphaViolations (serviceName : String) (service : Service)
    (cfg : Config) : List Violation :=
  if cfg.ShouldAlphabetize "labels" then
    match List.lookup "labels" service.Config with
    | some (.seq labels) =>
        if !(isAlphabetized labels extractLabelKey) then
          [alphaViolation serviceName "labels" "labels are not alphabetized" service]
        else []
    | some (.map labelMap) =>
        if !(isMapAlphabetized labelMap) then
          [alphaViolation serviceName "labels" "labels are not alphabetized" service]
        else []
    | _ => []
  else []

/-- `validator.validateAlphabetization`: environment, then volumes, then
labels; each special field yields at most one violation, and only when
the policy requires alphabetization for it. -/
def validateAlphabetization (serviceName : String) (service : Service)
    (cfg : Config) : List Violation :=
  envAlphaViolations serviceName service cfg ++
    volAlphaViolations serviceName service cfg ++
      labelAlphaViolations serviceName service cfg

/-- `validator.Validate`: all violations over the flattened services, in
service order, field order before alphabetization per service; `Valid`
is cleared when any violation was found. -/
def Validate (file : ComposeFile) (cfg : Config) : ValidationResult :=
  let violations :=
    file.GetServices.flatMap (fun p =>
      validateFieldOrder p.1 p.2 (cfg.GetFieldOrder p.1) cfg ++
        validateAlphabetization p.1 p.2 cfg)
  { File := file.Path
    Valid := !(violations.length > 0)
    Violations := violations }

/-! ## Rewriter (`internal/fixer`) -/

/-- The comparison used by the fixer's `sort.Slice` calls: case-insensitive
order of the extracted keys. -/
def keyLe {α : Type} (f : α → String) (a b : α) : Prop :=
  (f a).toLower ≤ (f b).toLower

instance {α : Type} (f : α → String) : DecidableRel (keyLe f) :=
  fun a b => inferInstanceAs (Decidable ((f a).toLower ≤ (f b).toLower))

instance {α : Type} (f : α → String) : IsTotal α (keyLe f) :=
  ⟨fun a b => le_total (f a).toLower (f b).toLower⟩

instance {α : Type} (f : α → String) : IsTrans α (keyLe f) :=
  ⟨fun _ _ _ hab hbc => le_trans hab hbc⟩

/-- The fixer's `sort.Slice(x, lower(key i) < lower(key j))`, modelled as
a deterministic (stable) sort under the same ordering. -/
def sortByKey {α : Type} (f : α → String) (l : List α) : List α :=
  List.insertionSort (keyLe f) l

/-- `fixer.alphabetizeEnvironment`: sort list entries by their
environment key, or reorder a mapping's entries by key; report whether
anything moved.  The sequence branch mirrors the Go slice code exactly
(slices do preserve order).  The mapping branch's Go code gathers the
keys with `for k := range v` — an order Go randomizes — and the model's
list order determinizes it, so its change detection is deterministic
where the program's is not; the README documents map-format fields as
not reliably checkable for exactly this reason, and the claims about
re-running the fixer carry a `NoMapSpecial` hypothesis excluding this
branch. -/
def alphabetizeEnvironment (value : Value) : Value × Bool :=
  match value with
  | .seq v =>
      if v.length < 2 then (value, false)
      else
        let sorted := sortByKey extractEnvKey v
        if v = sorted then (value, false) else (.seq sorted, true)
  | .map v =>
      if v.length < 2 then (value, false)
      else
        let keys := v.map (fun p => p.1)
        let sortedKeys := sortByKey id keys
        if keys = sortedKeys then (value, false)
        else
          (.map (sortedKeys.filterMap (fun k => (List.lookup k v).map (fun x => (k, x)))),
           true)
  | _ => (value, false)

/-- `fixer.alphabetizeVolumes`: list entries only, by source path. -/
def alphabetizeVolumes (value : Value) : Value × Bool :=
  match value with
  | .seq v =>
      if v.length < 2 then (value, false)
      else
        let sorted := sortByKey extractVolumeKey v
        if v = sorted then (value, false) else (.seq sorted, true)
  | _ => (value, false)

/-- `fixer.alphabetizeLabels`: like environment, with label keys — and
with the same caveat: the mapping branch determinizes a Go map `range`
whose real order is randomized, so it is excluded from the re-run
claims by `NoMapSpecial`. -/
def alphabetizeLabels (value : Value) : Value × Bool :=
  match value with
  | .seq v =>
      if v.length < 2 then (value, false)
      else
        let sorted := sortByKey extractLabelKey v
        if v = sorted then (value, false) else (.seq sorted, true)
  | .map v =>
      if v.length < 2 then (value, false)
      else
        let keys := v.map (fun p => p.1)
        let sortedKeys := sortByKey id keys
        if keys = sortedKeys then (value, false)
        else
          (.map (sortedKeys.filterMap (fun k => (List.lookup k v).map (fun x => (k, x)))),
           true)
  | _ => (value, false)

/-- `fixer.alphabetizeField`: dispatch on the three special fields, after
the policy gate. -/
def alphabetizeField (field : String) (value : Value) (cfg : Config) : Value × Bool :=
  if !(cfg.ShouldAlphabetize field) then (value, false)
  else
    match field with
    | "environment" => alphabetizeEnvironment value
    | "volumes" => alphabetizeVolumes value
    | "labels" => alphabetizeLabels value
    | _ => (value, false)

/-- `fixer.getFieldIndex`: first index in the canonical order, `-1` when
absent. -/
def getFieldIndex (field : String) (fieldOrder : List String) : Int :=
  match fieldOrder.findIdx? (fun f => f == field) with
  | some i => (i : Int)
  | none => -1

/-- The loop body of `fixer.isFieldOrderCorrect` over the map's keys in
iteration order, threading `lastIndex`. -/
def fieldOrderScan (fieldOrder : List String) : List String → Int → Bool
  | [], _ => true
  | k :: ks, lastIndex =>
      let idx := getFieldIndex k fieldOrder
      if idx ≥ 0 then
        if idx < lastIndex then false else fieldOrderScan fieldOrder ks idx
      else fieldOrderScan fieldOrder ks lastIndex

/-- `fixer.isFieldOrderCorrect`: canonical indices of the present fields
must be non-decreasing in iteration order (unknown fields are skipped). -/
def isFieldOrderCorrect (svc : SvcMap) (fieldOrder : List String) : Bool :=
  fieldOrderScan fieldOrder (svc.map (fun p => p.1)) (-1)

/-- A `"service 'name': alphabetized 'field'"` change message. -/
def alphaChangeMsg (name field : String) : String :=
  s!"service \x27{name}\x27: alphabetized \x27{field}\x27"

/-- A `"service 'name': reordered fields"` change message. -/
def reorderMsg (name : String) : String :=
  s!"service \x27{name}\x27: reordered fields"

/-- The first loop of `fixer.fixService`: walk the canonical order, move
each present field (alphabetized) into `ordered` and delete it from the
service map.  Returns the remaining map, `ordered`, the change messages
and whether any alphabetization changed a value. -/
def fixCanonicalLoop (name : String) (cfg : Config) :
    List String → SvcMap → SvcMap × SvcMap × List String × Bool
  | [], svc => (svc, [], [], false)
  | field :: rest, svc =>
      match List.lookup field svc with
      | some value =>
          let av := alphabetizeField field value cfg
          let r := fixCanonicalLoop name cfg rest (eraseK svc field)
          (r.1, (field, av.1) :: r.2.1,
           (if av.2 then [alphaChangeMsg name field] else []) ++ r.2.2.1,
           av.2 || r.2.2.2)
      | none => fixCanonicalLoop name cfg rest svc

/-- The second loop of `fixer.fixService`: append the remaining
(non-canonical) fields, alphabetized, to `ordered`.  The Go loop is
`for field, value := range svc` over a map, whose order is unspecified;
the model iterates in list order.  Everything the claims draw from this
loop — the change flag (a disjunction over the fields), emptiness of
the change log, and the key/value content of `ordered` — is invariant
under the iteration order; only the model-internal list presentation
depends on it. -/
def fixRemainingLoop (name : String) (cfg : Config) :
    SvcMap → SvcMap → SvcMap × List String × Bool
  | [], ordered => (ordered, [], false)
  | (field, value) :: rest, ordered =>
      let av := alphabetizeField field value cfg
      let r := fixRemainingLoop name cfg rest (setK ordered field av.1)
      (r.1, (if av.2 then [alphaChangeMsg name field] else []) ++ r.2.1, av.2 || r.2.2)

/-- The final loop of `fixer.fixService`: copy `ordered` back into the
(depleted) service map.  The Go loop ranges over the `ordered` map in
unspecified order; since every step is the keyed assignment
`svc[field] = value` and the keys are distinct, the resulting map
content does not depend on that order — the model's list order fixes
only a presentation of it. -/
def copyBack (svc : SvcMap) (ordered : SvcMap) : SvcMap :=
  ordered.foldl (fun acc p => setK acc p.1 p.2) svc

/-- The result of `fixer.fixService`: the service map after mutation, the
`fixed` flag, and the change log. -/
structure FixServiceResult where
  svc : SvcMap
  fixed : Bool
  changes : List String
deriving DecidableEq

/-- `fixer.fixService`: canonical fields first (alphabetized), remaining
fields after, the reordering check on the depleted map, then the
copy-back. -/
def fixService (name : String) (svc : SvcMap) (fieldOrder : List String)
    (cfg : Config) : FixServiceResult :=
  let r1 := fixCanonicalLoop name cfg fieldOrder svc
  let svc1 := r1.1
  let r2 := fixRemainingLoop name cfg svc1 r1.2.1
  let reordered := !(isFieldOrderCorrect svc1 fieldOrder)
  { svc := copyBack svc1 r2.1
    fixed := r1.2.2.2 || r2.2.2 || reordered
    changes := r1.2.2.1 ++ r2.2.1 ++ (if reordered then [reorderMsg name] else []) }

/-- One iteration of the service loop in `fixer.FixBytes`: a
mapping-valued service is fixed in place (Go mutates the map through the
shared reference), any other value is left alone. -/
def fixServiceEntry (cfg : Config) (p : String × Value) :
    (String × Value) × List String × Bool :=
  match p.2 with
  | .map svcMap =>
      let r := fixService p.1 svcMap (cfg.GetFieldOrder p.1) cfg
      ((p.1, Value.map r.svc), r.changes, r.fixed)
  | _ => ((p.1, p.2), ([] : List String), false)

/-- The body of `fixer.FixBytes` once the `services` mapping was found:
when nothing was fixed the input bytes are returned unchanged, otherwise
the updated document is marshalled with the collected change log. -/
def fixBytesCore (content : List (String × Value)) (cfg : Config)
    (services : List (String × Value)) : List (String × Value) × List String :=
  let results := services.map (fixServiceEntry cfg)
  let fixed := results.any (fun r => r.2.2)
  if !fixed then (content, [])
  else
    (setK content "services" (.map (results.map (fun r => r.1))),
     results.flatMap (fun r => r.2.1))

/-- `fixer.FixBytes`, on the decoded document model ("no services to fix"
returns the input unchanged). -/
def FixBytes (content : List (String × Value)) (cfg : Config) :
    List (String × Value) × List String :=
  match List.lookup "services" content with
  | some (.map services) => fixBytesCore content cfg services
  | _ => (content, [])

/-- One presentation of a service map as a `Service`: the fields are
declared in the order of the given list.  The runtime offers no
canonical presentation of a fixed map — Go maps are unordered and
`yaml.Marshal` chooses the serialized key order — so theorems that
re-check fixer output through this view quantify over all presentations
(permutations) of the map wherever the presentation matters. -/
def serviceOfMap (name : String) (svc : SvcMap) : Service :=
  { Name := name
    Config := svc
    FieldOrder := svc.map (fun p => p.1)
    Line := 0
    Column := 0 }

/-! ## Association-map lemmas -/

theorem lookup_cons_svc (k k' : String) (v : Value) (rest : SvcMap) :
    List.lookup k ((k', v) :: rest) = if k' = k then some v else List.lookup k rest := by
  by_cases h : k' = k
  · subst h
    simp [List.lookup_cons]
  · simp [List.lookup_cons, h, beq_eq_false_iff_ne.mpr (Ne.symm h)]

theorem lookup_eraseK (m : SvcMap) (f k : String) :
    List.lookup k (eraseK m f) = if k = f then none else List.lookup k m := by
  induction m with
  | nil => simp [eraseK]
  | cons p rest ih =>
      obtain ⟨k', v'⟩ := p
      simp only [eraseK] at ih ⊢
      rw [List.filter_cons]
      by_cases hkf : k' = f
      · subst hkf
        rcases eq_or_ne k k' with rfl | hk
        · simp [ih]
        · simp [ih, hk, lookup_cons_svc, Ne.symm hk]
      · simp only [beq_eq_false_iff_ne.mpr hkf, Bool.not_false, if_true]
        rcases eq_or_ne k' k with rfl | hk
        · simp [lookup_cons_svc, fun he : k' = f => hkf he]
        · simp [lookup_cons_svc, hk, ih]

theorem lookup_eq_none_iff (m : SvcMap) (k : String) :
    List.lookup k m = none ↔ ∀ p ∈ m, p.1 ≠ k := by
  induction m with
  | nil => simp
  | cons p rest ih =>
      obtain ⟨k', v'⟩ := p
      rcases eq_or_ne k' k with rfl | h
      · simp [lookup_cons_svc]
      · simp [lookup_cons_svc, h, ih]

theorem lookup_append_svc (m₁ m₂ : SvcMap) (k : String) :
    List.lookup k (m₁ ++ m₂) = (List.lookup k m₁).or (List.lookup k m₂) := by
  induction m₁ with
  | nil => simp
  | cons p rest ih =>
      obtain ⟨k', v'⟩ := p
      rcases eq_or_ne k' k with rfl | h
      · simp [lookup_cons_svc]
      · simp [lookup_cons_svc, h, ih]

theorem lookup_map_values (m : SvcMap) (g : String → Value → Value) (k : String) :
    List.lookup k (m.map (fun p => (p.1, g p.1 p.2))) = (List.lookup k m).map (g k) := by
  induction m with
  | nil => simp
  | cons p rest ih =>
      obtain ⟨k', v'⟩ := p
      rcases eq_or_ne k' k with rfl | h
      · simp [lookup_cons_svc]
      · simp [lookup_cons_svc, h, ih]

theorem lookup_some_of_mem_nodup {m : SvcMap} {k : String} {v : Value}
    (hn : (m.map (fun p => p.1)).Nodup) (hm : (k, v) ∈ m) :
    List.lookup k m = some v := by
  induction m with
  | nil => simp at hm
  | cons p rest ih =>
      obtain ⟨k', v'⟩ := p
      simp only [List.map_cons, List.nodup_cons] at hn
      rcases List.mem_cons.mp hm with h | h
      · rw [Prod.mk.injEq] at h
        obtain ⟨rfl, rfl⟩ := h
        simp [lookup_cons_svc]
      · have hne : k' ≠ k := by
          rintro rfl
          exact hn.1 (List.mem_map.mpr ⟨(k', v), h, rfl⟩)
        simp [lookup_cons_svc, hne, ih hn.2 h]

theorem setK_of_not_mem {m : SvcMap} {k : String} (h : ∀ p ∈ m, p.1 ≠ k) (v : Value) :
    setK m k v = m ++ [(k, v)] := by
  have : m.any (fun p => p.1 == k) = false := by
    simp only [List.any_eq_false]
    intro p hp
    simpa using h p hp
  simp [setK, this]

theorem setK_update_unique {pre post : SvcMap} {k : String} {v : Value}
    (hpre : ∀ p ∈ pre, p.1 ≠ k) (hpost : ∀ p ∈ post, p.1 ≠ k) (w : Value) :
    setK (pre ++ (k, v) :: post) k w = pre ++ (k, w) :: post := by
  have hany : (pre ++ (k, v) :: post).any (fun p => p.1 == k) = true := by
    simp only [List.any_eq_true]
    exact ⟨(k, v), by simp, by simp⟩
  rw [setK, if_pos hany]
  rw [List.map_append, List.map_cons]
  have hpre' : pre.map (fun p => if p.1 == k then (p.1, w) else p) = pre := by
    rw [show pre.map (fun p => if p.1 == k then (p.1, w) else p) = pre.map id by
      apply List.map_congr_left
      intro p hp
      simp [beq_eq_false_iff_ne.mpr (hpre p hp)]]
    exact List.map_id pre
  have hpost' : post.map (fun p => if p.1 == k then (p.1, w) else p) = post := by
    rw [show post.map (fun p => if p.1 == k then (p.1, w) else p) = post.map id by
      apply List.map_congr_left
      intro p hp
      simp [beq_eq_false_iff_ne.mpr (hpost p hp)]]
    exact List.map_id post
  rw [hpre', hpost']
  simp

theorem copyBack_append (svc l₁ l₂ : SvcMap) :
    copyBack svc (l₁ ++ l₂) = copyBack (copyBack svc l₁) l₂ :=
  List.foldl_append ..

theorem copyBack_disjoint :
    ∀ (ordered svc : SvcMap),
      (∀ p ∈ ordered, ∀ q ∈ svc, q.1 ≠ p.1) →
      (ordered.map (fun p => p.1)).Nodup →
      copyBack svc ordered = svc ++ ordered
  | [], svc, _, _ => by simp [copyBack]
  | (k, v) :: rest, svc, h, hn => by
      simp only [List.map_cons, List.nodup_cons] at hn
      have h1 : setK svc k v = svc ++ [(k, v)] :=
        setK_of_not_mem (fun q hq => h (k, v) (by simp) q hq) v
      have h2 : ∀ p ∈ rest, ∀ q ∈ svc ++ [(k, v)], q.1 ≠ p.1 := by
        intro p hp q hq
        rcases List.mem_append.mp hq with hq | hq
        · exact h p (List.mem_cons_of_mem _ hp) q hq
        · simp only [List.mem_singleton] at hq
          subst hq
          intro he
          have hmem : p.1 ∈ rest.map (fun p => p.1) := List.mem_map.mpr ⟨p, hp, rfl⟩
          rw [← he] at hmem
          exact hn.1 hmem
      calc copyBack svc ((k, v) :: rest)
          = copyBack (setK svc k v) rest := rfl
        _ = (svc ++ [(k, v)]) ++ rest := by rw [h1]; exact copyBack_disjoint rest _ h2 hn.2
        _ = svc ++ (k, v) :: rest := by simp

theorem keys_split_facts {pre rp : SvcMap} {k : String} {v : Value}
    (hnd : ((pre ++ (k, v) :: rp).map (fun p => p.1)).Nodup) :
    (∀ p ∈ pre, p.1 ≠ k) ∧ (∀ p ∈ rp, p.1 ≠ k) ∧
      (((pre ++ rp).map (fun p => p.1)).Nodup) := by
  rw [List.map_append, List.map_cons] at hnd
  rw [List.nodup_append] at hnd
  obtain ⟨h1, h2, h3⟩ := hnd
  rw [List.nodup_cons] at h2
  refine ⟨?_, ?_, ?_⟩
  · intro p hp he
    exact h3 (List.mem_map.mpr ⟨p, hp, rfl⟩) (by simp [he])
  · intro p hp he
    exact h2.1 (by rw [← he]; exact List.mem_map.mpr ⟨p, hp, rfl⟩)
  · rw [List.map_append, List.nodup_append]
    exact ⟨h1, h2.2, fun a ha hb => h3 ha (List.mem_cons_of_mem _ hb)⟩

theorem copyBack_update :
    ∀ (m pre post : SvcMap) (g : String → Value → Value),
      (((pre ++ m ++ post).map (fun p => p.1)).Nodup) →
      copyBack (pre ++ m ++ post) (m.map (fun p => (p.1, g p.1 p.2))) =
        pre ++ m.map (fun p => (p.1, g p.1 p.2)) ++ post
  | [], pre, post, g, _ => by simp [copyBack]
  | (k, v) :: rest, pre, post, g, hnd => by
      have hnd0 : ((pre ++ (k, v) :: (rest ++ post)).map (fun p => p.1)).Nodup := by
        simpa using hnd
      obtain ⟨hk_pre, hk_rp, _⟩ := keys_split_facts hnd0
      have step : setK (pre ++ (k, v) :: rest ++ post) k (g k v) =
          pre ++ (k, g k v) :: rest ++ post := by
        have := @setK_update_unique pre (rest ++ post) k v hk_pre hk_rp (g k v)
        simpa using this
      have hnd2 : (((pre ++ [(k, g k v)]) ++ rest ++ post).map (fun p => p.1)).Nodup := by
        have h2 : ((pre ++ [(k, g k v)]) ++ rest ++ post).map (fun p => p.1) =
            (pre ++ (k, v) :: rest ++ post).map (fun p => p.1) := by
          simp
        rw [h2]
        exact hnd
      calc copyBack (pre ++ (k, v) :: rest ++ post)
              (((k, v) :: rest).map (fun p => (p.1, g p.1 p.2)))
          = copyBack (setK (pre ++ (k, v) :: rest ++ post) k (g k v))
              (rest.map (fun p => (p.1, g p.1 p.2))) := rfl
        _ = copyBack ((pre ++ [(k, g k v)]) ++ rest ++ post)
              (rest.map (fun p => (p.1, g p.1 p.2))) := by rw [step]; simp
        _ = (pre ++ [(k, g k v)]) ++ rest.map (fun p => (p.1, g p.1 p.2)) ++ post :=
              copyBack_update rest (pre ++ [(k, g k v)]) post g hnd2
        _ = pre ++ ((k, v) :: rest).map (fun p => (p.1, g p.1 p.2)) ++ post := by simp

/-! ## Correctness of the validator's exchange sort -/

/-- The case-insensitive string order underlying every comparison. -/
def lowerLe (a b : String) : Prop := a.toLower ≤ b.toLower

instance : DecidableRel lowerLe :=
  fun a b => inferInstanceAs (Decidable (a.toLower ≤ b.toLower))

theorem innerPass_fst_le (h : String) (l : List String) :
    lowerLe (innerPass h l).1 h ∧ ∀ x ∈ (innerPass h l).2, lowerLe (innerPass h l).1 x := by
  induction l generalizing h with
  | nil => exact ⟨le_refl _, by simp [innerPass]⟩
  | cons t ts ih =>
      by_cases hc : t.toLower < h.toLower
      · have iht := ih t
        refine ⟨?_, ?_⟩
        · simp only [innerPass, if_pos hc]
          exact le_trans iht.1 (le_of_lt hc)
        · intro x hx
          simp only [innerPass, if_pos hc] at hx ⊢
          rcases List.mem_cons.mp hx with rfl | hx
          · exact le_trans iht.1 (le_of_lt hc)
          · exact iht.2 x hx
      · have ihh := ih h
        have hht : lowerLe h t := le_of_not_lt hc
        refine ⟨?_, ?_⟩
        · simp only [innerPass, if_neg hc]
          exact ihh.1
        · intro x hx
          simp only [innerPass, if_neg hc] at hx ⊢
          rcases List.mem_cons.mp hx with rfl | hx
          · exact le_trans ihh.1 hht
          · exact ihh.2 x hx

theorem innerPass_perm (h : String) (l : List String) :
    List.Perm ((innerPass h l).1 :: (innerPass h l).2) (h :: l) := by
  induction l generalizing h with
  | nil => simp [innerPass]
  | cons t ts ih =>
      by_cases hc : t.toLower < h.toLower
      · simp only [innerPass, if_pos hc]
        exact (List.Perm.swap _ _ _).trans ((ih t).cons h)
      · simp only [innerPass, if_neg hc]
        exact ((List.Perm.swap _ _ _).trans ((ih h).cons t)).trans (List.Perm.swap _ _ _)

theorem innerPass_id (h : String) (l : List String)
    (hle : ∀ x ∈ l, lowerLe h x) : innerPass h l = (h, l) := by
  induction l with
  | nil => rfl
  | cons t ts ih =>
      have hht : ¬ t.toLower < h.toLower := not_lt_of_le (hle t (by simp))
      simp only [innerPass, if_neg hht]
      rw [ih (fun x hx => hle x (List.mem_cons_of_mem _ hx))]

theorem exchangeSort_perm : ∀ l : List String, List.Perm (exchangeSort l) l
  | [] => by simp [exchangeSort]
  | x :: xs => by
      rw [exchangeSort]
      have h2 : List.Perm (exchangeSort (innerPass x xs).2) (innerPass x xs).2 :=
        exchangeSort_perm (innerPass x xs).2
      exact ((h2.cons (innerPass x xs).1)).trans (innerPass_perm x xs)
termination_by l => l.length
decreasing_by simp [innerPass_snd_length]

theorem exchangeSort_pairwise : ∀ l : List String, List.Pairwise lowerLe (exchangeSort l)
  | [] => by simp [exchangeSort]
  | x :: xs => by
      rw [exchangeSort]
      refine List.pairwise_cons.mpr ⟨?_, ?_⟩
      · intro y hy
        have hy' : y ∈ (innerPass x xs).2 := (exchangeSort_perm _).mem_iff.mp hy
        exact (innerPass_fst_le x xs).2 y hy'
      · exact exchangeSort_pairwise (innerPass x xs).2
termination_by l => l.length
decreasing_by simp [innerPass_snd_length]

theorem exchangeSort_of_pairwise : ∀ l : List String,
    List.Pairwise lowerLe l → exchangeSort l = l
  | [], _ => by simp [exchangeSort]
  | x :: xs, hp => by
      rw [exchangeSort]
      obtain ⟨hx, hxs⟩ := List.pairwise_cons.mp hp
      rw [innerPass_id x xs hx]
      rw [exchangeSort_of_pairwise xs hxs]
termination_by l => l.length
decreasing_by simp [innerPass_id, innerPass_snd_length]

theorem exchangeSort_eq_self_iff (l : List String) :
    exchangeSort l = l ↔ List.Pairwise lowerLe l := by
  constructor
  · intro h
    have := exchangeSort_pairwise l
    rwa [h] at this
  · exact exchangeSort_of_pairwise l

theorem isAlphabetized_iff (items : List Value) (ext : Value → String) :
    isAlphabetized items ext = true ↔
      List.Pairwise (fun a b => lowerLe (ext a) (ext b)) items := by
  unfold isAlphabetized
  by_cases hlen : items.length < 2
  · simp only [if_pos hlen, true_iff]
    match items, hlen with
    | [], _ => exact List.Pairwise.nil
    | [x], _ => simp
  · simp only [if_neg hlen]
    rw [beq_iff_eq, eq_comm, exchangeSort_eq_self_iff, List.pairwise_map]

theorem isMapAlphabetized_iff (m : List (String × Value)) :
    isMapAlphabetized m = true ↔
      List.Pairwise (fun p q : String × Value => lowerLe p.1 q.1) m := by
  unfold isMapAlphabetized
  by_cases hlen : m.length < 2
  · simp only [if_pos hlen, true_iff]
    match m, hlen with
    | [], _ => exact List.Pairwise.nil
    | [x], _ => simp
  · simp only [if_neg hlen]
    rw [beq_iff_eq, eq_comm, exchangeSort_eq_self_iff, List.pairwise_map]

/-! ## Properties of the fixer's sort -/

theorem sortByKey_perm {α : Type} (f : α → String) (l : List α) :
    List.Perm (sortByKey f l) l :=
  List.perm_insertionSort _ l

theorem sortByKey_pairwise {α : Type} (f : α → String) (l : List α) :
    List.Pairwise (keyLe f) (sortByKey f l) :=
  List.sorted_insertionSort _ l

theorem sortByKey_of_pairwise {α : Type} {f : α → String} {l : List α}
    (h : List.Pairwise (keyLe f) l) : sortByKey f l = l :=
  List.Sorted.insertionSort_eq h

/-! ## Shape predicates preserved and established by the alphabetizers -/

/-- The checker's acceptance condition for an environment value: list
entries sorted by environment key, or mapping entries sorted by key;
any other shape is ignored by the checker. -/
def envEntriesOK : Value → Prop
  | .seq items => List.Pairwise (keyLe extractEnvKey) items
  | .map m => List.Pairwise (keyLe (fun p : String × Value => p.1)) m
  | _ => True

/-- The checker's acceptance condition for a volumes value. -/
def volEntriesOK : Value → Prop
  | .seq items => List.Pairwise (keyLe extractVolumeKey) items
  | _ => True

/-- The checker's acceptance condition for a labels value. -/
def labEntriesOK : Value → Prop
  | .seq items => List.Pairwise (keyLe extractLabelKey) items
  | .map m => List.Pairwise (keyLe (fun p : String × Value => p.1)) m
  | _ => True

theorem pairwise_of_short {α : Type} {R : α → α → Prop} :
    ∀ {l : List α}, l.length < 2 → List.Pairwise R l
  | [], _ => List.Pairwise.nil
  | [_], _ => by simp
  | _ :: _ :: _, h => by
      exfalso
      simp only [List.length_cons] at h
      omega

theorem pairwise_entries_of_sorted_keys {keys : List String} {m : List (String × Value)}
    (h : List.Pairwise (keyLe (id : String → String)) keys) :
    List.Pairwise (keyLe (fun p : String × Value => p.1))
      (keys.filterMap (fun k => (List.lookup k m).map (fun x => (k, x)))) := by
  rw [List.pairwise_filterMap]
  refine h.imp_of_mem ?_
  intro a b _ _ hab x hx y hy
  simp only [Option.mem_def, Option.map_eq_some'] at hx hy
  obtain ⟨xv, _, rfl⟩ := hx
  obtain ⟨yv, _, rfl⟩ := hy
  exact hab

theorem alphabetizeEnvironment_OK (v : Value) : envEntriesOK (alphabetizeEnvironment v).1 := by
  match v with
  | .str s => trivial
  | .boolean b => trivial
  | .intv n => trivial
  | .null => trivial
  | .seq items =>
      by_cases hlen : items.length < 2
      · simpa [alphabetizeEnvironment, hlen, envEntriesOK] using pairwise_of_short hlen
      · by_cases hs : items = sortByKey extractEnvKey items
        · simp only [alphabetizeEnvironment, if_neg hlen, if_pos hs, envEntriesOK]
          rw [hs]
          exact sortByKey_pairwise _ _
        · simp only [alphabetizeEnvironment, if_neg hlen, if_neg hs, envEntriesOK]
          exact sortByKey_pairwise _ _
  | .map m =>
      by_cases hlen : m.length < 2
      · simpa [alphabetizeEnvironment, hlen, envEntriesOK] using pairwise_of_short hlen
      · by_cases hs : m.map (fun p => p.1) = sortByKey id (m.map (fun p => p.1))
        · simp only [alphabetizeEnvironment, if_neg hlen, if_pos hs, envEntriesOK]
          have : List.Pairwise (keyLe (id : String → String)) (m.map (fun p => p.1)) := by
            rw [hs]
            exact sortByKey_pairwise _ _
          rw [List.pairwise_map] at this
          exact this
        · simp only [alphabetizeEnvironment, if_neg hlen, if_neg hs, envEntriesOK]
          exact pairwise_entries_of_sorted_keys (sortByKey_pairwise _ _)

theorem alphabetizeEnvironment_of_OK {v : Value} (h : envEntriesOK v) :
    alphabetizeEnvironment v = (v, false) := by
  match v with
  | .str s => rfl
  | .boolean b => rfl
  | .intv n => rfl
  | .null => rfl
  | .seq items =>
      by_cases hlen : items.length < 2
      · simp [alphabetizeEnvironment, hlen]
      · have hs : sortByKey extractEnvKey items = items :=
          sortByKey_of_pairwise (by simpa [envEntriesOK] using h)
        simp only [alphabetizeEnvironment, if_neg hlen]
        rw [hs]
        simp
  | .map m =>
      by_cases hlen : m.length < 2
      · simp [alphabetizeEnvironment, hlen]
      · have hkeys : List.Pairwise (keyLe (id : String → String)) (m.map (fun p => p.1)) := by
          rw [List.pairwise_map]
          simpa [envEntriesOK] using h
        have hs : sortByKey id (m.map (fun p => p.1)) = m.map (fun p => p.1) :=
          sortByKey_of_pairwise hkeys
        simp only [alphabetizeEnvironment, if_neg hlen]
        rw [hs]
        simp

theorem alphabetizeVolumes_OK (v : Value) : volEntriesOK (alphabetizeVolumes v).1 := by
  match v with
  | .str s => trivial
  | .boolean b => trivial
  | .intv n => trivial
  | .null => trivial
  | .map m => trivial
  | .seq items =>
      by_cases hlen : items.length < 2
      · simpa [alphabetizeVolumes, hlen, volEntriesOK] using pairwise_of_short hlen
      · by_cases hs : items = sortByKey extractVolumeKey items
        · simp only [alphabetizeVolumes, if_neg hlen, if_pos hs, volEntriesOK]
          rw [hs]
          exact sortByKey_pairwise _ _
        · simp only [alphabetizeVolumes, if_neg hlen, if_neg hs, volEntriesOK]
          exact sortByKey_pairwise _ _

theorem alphabetizeVolumes_of_OK {v : Value} (h : volEntriesOK v) :
    alphabetizeVolumes v = (v, false) := by
  match v with
  | .str s => rfl
  | .boolean b => rfl
  | .intv n => rfl
  | .null => rfl
  | .map m => rfl
  | .seq items =>
      by_cases hlen : items.length < 2
      · simp [alphabetizeVolumes, hlen]
      · have hs : sortByKey extractVolumeKey items = items :=
          sortByKey_of_pairwise (by simpa [volEntriesOK] using h)
        simp only [alphabetizeVolumes, if_neg hlen]
        rw [hs]
        simp

theorem alphabetizeLabels_OK (v : Value) : labEntriesOK (alphabetizeLabels v).1 := by
  match v with
  | .str s => trivial
  | .boolean b => trivial
  | .intv n => trivial
  | .null => trivial
  | .seq items =>
      by_cases hlen : items.length < 2
      · simpa [alphabetizeLabels, hlen, labEntriesOK] using pairwise_of_short hlen
      · by_cases hs : items = sortByKey extractLabelKey items
        · simp only [alphabetizeLabels, if_neg hlen, if_pos hs, labEntriesOK]
          rw [hs]
          exact sortByKey_pairwise _ _
        · simp only [alphabetizeLabels, if_neg hlen, if_neg hs, labEntriesOK]
          exact sortByKey_pairwise _ _
  | .map m =>
      by_cases hlen : m.length < 2
      · simpa [alphabetizeLabels, hlen, labEntriesOK] using pairwise_of_short hlen
      · by_cases hs : m.map (fun p => p.1) = sortByKey id (m.map (fun p => p.1))
        · simp only [alphabetizeLabels, if_neg hlen, if_pos hs, labEntriesOK]
          have : List.Pairwise (keyLe (id : String → String)) (m.map (fun p => p.1)) := by
            rw [hs]
            exact sortByKey_pairwise _ _
          rw [List.pairwise_map] at this
          exact this
        · simp only [alphabetizeLabels, if_neg hlen, if_neg hs, labEntriesOK]
          exact pairwise_entries_of_sorted_keys (sortByKey_pairwise _ _)

theorem alphabetizeLabels_of_OK {v : Value} (h : labEntriesOK v) :
    alphabetizeLabels v = (v, false) := by
  match v with
  | .str s => rfl
  | .boolean b => rfl
  | .intv n => rfl
  | .null => rfl
  | .seq items =>
      by_cases hlen : items.length < 2
      · simp [alphabetizeLabels, hlen]
      · have hs : sortByKey extractLabelKey items = items :=
          sortByKey_of_pairwise (by simpa [labEntriesOK] using h)
        simp only [alphabetizeLabels, if_neg hlen]
        rw [hs]
        simp
  | .map m =>
      by_cases hlen : m.length < 2
      · simp [alphabetizeLabels, hlen]
      · have hkeys : List.Pairwise (keyLe (id : String → String)) (m.map (fun p => p.1)) := by
          rw [List.pairwise_map]
          simpa [labEntriesOK] using h
        have hs : sortByKey id (m.map (fun p => p.1)) = m.map (fun p => p.1) :=
          sortByKey_of_pairwise hkeys
        simp only [alphabetizeLabels, if_neg hlen]
        rw [hs]
        simp

/-- After one `alphabetizeField` pass the value satisfies the checker's
acceptance condition for its field (trivial for non-special fields). -/
theorem alphabetizeField_OK (field : String) (v : Value) (cfg : Config) :
    (field = "environment" → cfg.ShouldAlphabetize "environment" = true →
        envEntriesOK (alphabetizeField field v cfg).1) ∧
      (field = "volumes" → cfg.ShouldAlphabetize "volumes" = true →
        volEntriesOK (alphabetizeField field v cfg).1) ∧
      (field = "labels" → cfg.ShouldAlphabetize "labels" = true →
        labEntriesOK (alphabetizeField field v cfg).1) := by
  refine ⟨?_, ?_, ?_⟩
  · rintro rfl hs
    simp [alphabetizeField, hs, alphabetizeEnvironment_OK]
  · rintro rfl hs
    simp [alphabetizeField, hs, alphabetizeVolumes_OK]
  · rintro rfl hs
    simp [alphabetizeField, hs, alphabetizeLabels_OK]

/-- `alphabetizeField` leaves checker-accepted values untouched and
reports no change. -/
theorem alphabetizeField_of_OK {field : String} {v : Value} {cfg : Config}
    (henv : field = "environment" → cfg.ShouldAlphabetize "environment" = true →
      envEntriesOK v)
    (hvol : field = "volumes" → cfg.ShouldAlphabetize "volumes" = true → volEntriesOK v)
    (hlab : field = "labels" → cfg.ShouldAlphabetize "labels" = true → labEntriesOK v) :
    alphabetizeField field v cfg = (v, false) := by
  by_cases hs : cfg.ShouldAlphabetize field = true
  · have hf : field = "environment" ∨ field = "volumes" ∨ field = "labels" := by
      by_contra hcon
      push_neg at hcon
      obtain ⟨h1, h2, h3⟩ := hcon
      have hfalse : cfg.ShouldAlphabetize field = false := by
        unfold Config.ShouldAlphabetize
        split
        all_goals simp_all
      rw [hfalse] at hs
      exact Bool.false_ne_true hs
    rcases hf with rfl | rfl | rfl
    · simp [alphabetizeField, hs, alphabetizeEnvironment_of_OK (henv rfl hs)]
    · simp [alphabetizeField, hs, alphabetizeVolumes_of_OK (hvol rfl hs)]
    · simp [alphabetizeField, hs, alphabetizeLabels_of_OK (hlab rfl hs)]
  · simp only [Bool.not_eq_true] at hs
    simp [alphabetizeField, hs]

/-- Alphabetizing twice changes nothing the second time. -/
theorem alphabetizeField_idem (field : String) (v : Value) (cfg : Config) :
    alphabetizeField field (alphabetizeField field v cfg).1 cfg =
      ((alphabetizeField field v cfg).1, false) := by
  apply alphabetizeField_of_OK
  · rintro rfl hs
    exact (alphabetizeField_OK _ v cfg).1 rfl hs
  · rintro rfl hs
    exact (alphabetizeField_OK _ v cfg).2.1 rfl hs
  · rintro rfl hs
    exact (alphabetizeField_OK _ v cfg).2.2 rfl hs

/-! ## Structure of `fixService` -/

theorem beq_comm_str (a b : String) : (a == b) = (b == a) := by
  by_cases h : a = b
  · subst h
    rfl
  · rw [beq_eq_false_iff_ne.mpr h, beq_eq_false_iff_ne.mpr (Ne.symm h)]

/-- The canonical order with later duplicate occurrences removed: the
fixer's canonical loop deletes each found field, so only a field's first
occurrence in the canonical order can contribute. -/
def firstDedup : List String → List String
  | [] => []
  | f :: fs => f :: firstDedup (fs.filter (fun g => !(g == f)))
termination_by l => l.length
decreasing_by exact Nat.lt_succ_of_le (List.length_filter_le _ _)

theorem mem_firstDedup : ∀ (l : List String) (a : String), a ∈ firstDedup l ↔ a ∈ l
  | [], a => by rw [firstDedup]
  | f :: fs, a => by
      rw [firstDedup]
      by_cases ha : a = f
      · subst ha
        simp
      · simp only [List.mem_cons, ha, false_or]
        rw [mem_firstDedup (fs.filter (fun g => !(g == f))) a]
        simp [List.mem_filter, ha]
termination_by l => l.length
decreasing_by exact Nat.lt_succ_of_le (List.length_filter_le _ _)

theorem nodup_firstDedup : ∀ l : List String, (firstDedup l).Nodup
  | [] => by rw [firstDedup]; exact List.nodup_nil
  | f :: fs => by
      rw [firstDedup]
      refine List.nodup_cons.mpr ⟨?_, nodup_firstDedup _⟩
      rw [mem_firstDedup]
      simp
termination_by l => l.length
decreasing_by exact Nat.lt_succ_of_le (List.length_filter_le _ _)

/-- The canonical fields present on the service, in canonical order, with
alphabetized values: the contents of the fixer's `ordered` map after the
first loop. -/
def canonicalPart (cfg : Config) (svc : SvcMap) (fo : List String) : SvcMap :=
  (firstDedup fo).filterMap
    (fun f => (List.lookup f svc).map (fun v => (f, (alphabetizeField f v cfg).1)))

/-- The change messages of the canonical loop. -/
def canonicalMsgs (name : String) (cfg : Config) (svc : SvcMap) (fo : List String) :
    List String :=
  (firstDedup fo).filterMap
    (fun f => (List.lookup f svc).bind
      (fun v => if (alphabetizeField f v cfg).2 then some (alphaChangeMsg name f) else none))

/-- Whether the canonical loop alphabetized anything. -/
def canonicalChanged (cfg : Config) (svc : SvcMap) (fo : List String) : Bool :=
  (firstDedup fo).any
    (fun f => ((List.lookup f svc).map (fun v => (alphabetizeField f v cfg).2)).getD false)

theorem fixCanonicalLoop_skip_absent (name : String) (cfg : Config) :
    ∀ (f : String) (fo : List String) (svc : SvcMap), List.lookup f svc = none →
      fixCanonicalLoop name cfg fo svc =
        fixCanonicalLoop name cfg (fo.filter (fun g => !(g == f))) svc
  | f, [], svc, _ => by simp [fixCanonicalLoop]
  | f, g :: gs, svc, habs => by
      by_cases hgf : g = f
      · subst hgf
        rw [List.filter_cons]
        simp only [beq_self_eq_true, Bool.not_true, if_false]
        rw [fixCanonicalLoop]
        rw [habs]
        exact fixCanonicalLoop_skip_absent name cfg g gs svc habs
      · rw [List.filter_cons]
        simp only [beq_eq_false_iff_ne.mpr hgf, Bool.not_false, if_true]
        rw [fixCanonicalLoop, fixCanonicalLoop]
        cases hg : List.lookup g svc with
        | some v =>
            have habs' : List.lookup f (eraseK svc g) = none := by
              rw [lookup_eraseK]
              split
              · rfl
              · exact habs
            rw [fixCanonicalLoop_skip_absent name cfg f gs (eraseK svc g) habs']
        | none =>
            exact fixCanonicalLoop_skip_absent name cfg f gs svc habs

theorem any_congr_mem {α : Type} {p q : α → Bool} {l : List α}
    (h : ∀ x ∈ l, p x = q x) : l.any p = l.any q := by
  induction l with
  | nil => rfl
  | cons a t ih =>
      simp only [List.any_cons, h a (by simp)]
      rw [ih (fun x hx => h x (List.mem_cons_of_mem _ hx))]

theorem isInFieldOrder_filter_ne {p f : String} (hp : p ≠ f) (fs : List String) :
    isInFieldOrder p (fs.filter (fun g => !(g == f))) = isInFieldOrder p fs := by
  simp only [isInFieldOrder, List.any_filter]
  apply any_congr_mem
  intro g _
  by_cases hgp : g = p
  · subst hgp
    rw [beq_eq_false_iff_ne.mpr hp]
    simp
  · rw [beq_eq_false_iff_ne.mpr hgp]
    simp

/-- The closed form of the fixer's canonical loop: remaining map, the
`ordered` contents, the messages and the change flag, all expressed over
the original service map. -/
theorem fixCanonicalLoop_eq (name : String) (cfg : Config) :
    ∀ (fo : List String) (svc : SvcMap),
      fixCanonicalLoop name cfg fo svc =
        (svc.filter (fun p => !(isInFieldOrder p.1 fo)),
         canonicalPart cfg svc fo,
         canonicalMsgs name cfg svc fo,
         canonicalChanged cfg svc fo)
  | [], svc => by
      rw [fixCanonicalLoop]
      rw [canonicalPart, canonicalMsgs, canonicalChanged, firstDedup]
      simp [isInFieldOrder]
  | f :: fs, svc => by
      have hfd : firstDedup (f :: fs) = f :: firstDedup (fs.filter (fun g => !(g == f))) := by
        rw [firstDedup]
      have hlk : ∀ g ∈ firstDedup (fs.filter (fun g => !(g == f))),
          List.lookup g (eraseK svc f) = List.lookup g svc := by
        intro g hg
        rw [mem_firstDedup] at hg
        have hgf : g ≠ f := by
          rcases List.mem_filter.mp hg with ⟨_, hgf⟩
          simpa using hgf
        rw [lookup_eraseK, if_neg hgf]
      rw [fixCanonicalLoop]
      cases hf : List.lookup f svc with
      | some v =>
          have habs : List.lookup f (eraseK svc f) = none := by
            rw [lookup_eraseK]
            simp
          rw [fixCanonicalLoop_skip_absent name cfg f fs (eraseK svc f) habs]
          rw [fixCanonicalLoop_eq name cfg (fs.filter (fun g => !(g == f))) (eraseK svc f)]
          have hflt : (eraseK svc f).filter
              (fun p => !(isInFieldOrder p.1 (fs.filter (fun g => !(g == f))))) =
              svc.filter (fun p => !(isInFieldOrder p.1 (f :: fs))) := by
            rw [eraseK, List.filter_filter]
            apply List.filter_congr
            intro p _
            by_cases hp : p.1 = f
            · simp [isInFieldOrder, hp]
            · rw [isInFieldOrder_filter_ne hp fs]
              simp only [isInFieldOrder, List.any_cons]
              rw [beq_eq_false_iff_ne.mpr hp, beq_eq_false_iff_ne.mpr (Ne.symm hp)]
              simp [isInFieldOrder]
          have hrest1 : List.filterMap
              (fun g => (List.lookup g (eraseK svc f)).map
                (fun v => (g, (alphabetizeField g v cfg).1)))
              (firstDedup (fs.filter (fun g => !(g == f)))) =
              List.filterMap
              (fun g => (List.lookup g svc).map
                (fun v => (g, (alphabetizeField g v cfg).1)))
              (firstDedup (fs.filter (fun g => !(g == f)))) :=
            List.filterMap_congr (fun g hg => by rw [hlk g hg])
          have hrest2 : List.filterMap
              (fun g => (List.lookup g (eraseK svc f)).bind
                (fun v => if (alphabetizeField g v cfg).2 then some (alphaChangeMsg name g)
                  else none))
              (firstDedup (fs.filter (fun g => !(g == f)))) =
              List.filterMap
              (fun g => (List.lookup g svc).bind
                (fun v => if (alphabetizeField g v cfg).2 then some (alphaChangeMsg name g)
                  else none))
              (firstDedup (fs.filter (fun g => !(g == f)))) :=
            List.filterMap_congr (fun g hg => by rw [hlk g hg])
          have hcp : canonicalPart cfg svc (f :: fs) =
              (f, (alphabetizeField f v cfg).1) ::
                canonicalPart cfg (eraseK svc f) (fs.filter (fun g => !(g == f))) := by
            rw [canonicalPart, canonicalPart, hfd, List.filterMap_cons, hf, hrest1]
            rfl
          have hcm : canonicalMsgs name cfg svc (f :: fs) =
              (if (alphabetizeField f v cfg).2 then [alphaChangeMsg name f] else []) ++
                canonicalMsgs name cfg (eraseK svc f) (fs.filter (fun g => !(g == f))) := by
            rw [canonicalMsgs, canonicalMsgs, hfd, List.filterMap_cons, hf, hrest2]
            by_cases hc : (alphabetizeField f v cfg).2 <;> simp [hc]
          have hcc : canonicalChanged cfg svc (f :: fs) =
              ((alphabetizeField f v cfg).2 ||
                canonicalChanged cfg (eraseK svc f) (fs.filter (fun g => !(g == f)))) := by
            rw [canonicalChanged, canonicalChanged, hfd, List.any_cons, hf]
            congr 1
            apply any_congr_mem
            intro g hg
            rw [hlk g hg]
          rw [hcp, hcm, hcc, hflt]
      | none =>
          rw [fixCanonicalLoop_skip_absent name cfg f fs svc hf]
          rw [fixCanonicalLoop_eq name cfg (fs.filter (fun g => !(g == f))) svc]
          have hkeyne : ∀ p ∈ svc, p.1 ≠ f := (lookup_eq_none_iff svc f).mp hf
          have hflt : svc.filter
              (fun p => !(isInFieldOrder p.1 (fs.filter (fun g => !(g == f))))) =
              svc.filter (fun p => !(isInFieldOrder p.1 (f :: fs))) := by
            apply List.filter_congr
            intro p hp
            rw [isInFieldOrder_filter_ne (hkeyne p hp) fs]
            simp only [isInFieldOrder, List.any_cons]
            rw [beq_eq_false_iff_ne.mpr (Ne.symm (hkeyne p hp))]
            simp [isInFieldOrder]
          have hcp : canonicalPart cfg svc (f :: fs) =
              canonicalPart cfg svc (fs.filter (fun g => !(g == f))) := by
            rw [canonicalPart, canonicalPart, hfd, List.filterMap_cons, hf]
            simp
          have hcm : canonicalMsgs name cfg svc (f :: fs) =
              canonicalMsgs name cfg svc (fs.filter (fun g => !(g == f))) := by
            rw [canonicalMsgs, canonicalMsgs, hfd, List.filterMap_cons, hf]
            simp
          have hcc : canonicalChanged cfg svc (f :: fs) =
              canonicalChanged cfg svc (fs.filter (fun g => !(g == f))) := by
            rw [canonicalChanged, canonicalChanged, hfd, List.any_cons, hf]
            simp
          rw [hcp, hcm, hcc, hflt]
termination_by fo => fo.length
decreasing_by all_goals exact Nat.lt_succ_of_le (List.length_filter_le _ _)

/-- Closed form of the fixer's second loop, provided the remaining keys
are disjoint from `ordered` and duplicate-free. -/
theorem fixRemainingLoop_eq (name : String) (cfg : Config) :
    ∀ (m ordered : SvcMap),
      (∀ p ∈ m, ∀ q ∈ ordered, q.1 ≠ p.1) →
      ((m.map (fun p => p.1)).Nodup) →
      fixRemainingLoop name cfg m ordered =
        (ordered ++ m.map (fun p => (p.1, (alphabetizeField p.1 p.2 cfg).1)),
         m.filterMap (fun p => if (alphabetizeField p.1 p.2 cfg).2
            then some (alphaChangeMsg name p.1) else none),
         m.any (fun p => (alphabetizeField p.1 p.2 cfg).2))
  | [], ordered, _, _ => by simp [fixRemainingLoop]
  | (field, value) :: rest, ordered, hdisj, hnd => by
      simp only [List.map_cons, List.nodup_cons] at hnd
      have hset : setK ordered field (alphabetizeField field value cfg).1 =
          ordered ++ [(field, (alphabetizeField field value cfg).1)] :=
        setK_of_not_mem (fun q hq => hdisj (field, value) (by simp) q hq) _
      have hdisj' : ∀ p ∈ rest,
          ∀ q ∈ ordered ++ [(field, (alphabetizeField field value cfg).1)], q.1 ≠ p.1 := by
        intro p hp q hq
        rcases List.mem_append.mp hq with hq | hq
        · exact hdisj p (List.mem_cons_of_mem _ hp) q hq
        · simp only [List.mem_singleton] at hq
          subst hq
          intro he
          have : p.1 ∈ rest.map (fun p => p.1) := List.mem_map.mpr ⟨p, hp, rfl⟩
          rw [← he] at this
          exact hnd.1 this
      rw [fixRemainingLoop, hset,
        fixRemainingLoop_eq name cfg rest _ hdisj' hnd.2]
      by_cases hc : (alphabetizeField field value cfg).2 <;> simp [hc]

theorem getFieldIndex_eq_neg_one {k : String} {fo : List String}
    (h : isInFieldOrder k fo = false) : getFieldIndex k fo = -1 := by
  rw [getFieldIndex]
  have : fo.findIdx? (fun f => f == k) = none := by
    rw [List.findIdx?_eq_none_iff]
    intro x hx
    by_contra hcon
    simp only [Bool.not_eq_false, beq_iff_eq] at hcon
    subst hcon
    rw [isInFieldOrder] at h
    rw [List.any_eq_false] at h
    exact absurd (by simp) (h x hx)
  rw [this]

theorem fieldOrderScan_all_absent (fo : List String) :
    ∀ (keys : List String) (last : Int),
      (∀ k ∈ keys, isInFieldOrder k fo = false) →
      fieldOrderScan fo keys last = true
  | [], _, _ => rfl
  | k :: ks, last, h => by
      rw [fieldOrderScan]
      have hidx : getFieldIndex k fo = -1 := getFieldIndex_eq_neg_one (h k (by simp))
      rw [hidx]
      simp only [show ¬((-1 : Int) ≥ 0) from by omega, if_false]
      exact fieldOrderScan_all_absent fo ks last (fun x hx => h x (List.mem_cons_of_mem _ hx))

/-- The `isFieldOrderCorrect` call inside `fixService` always sees a map
from which every canonical field has been deleted, so it returns `true`
unconditionally. -/
theorem isFieldOrderCorrect_filtered (svc : SvcMap) (fo : List String) :
    isFieldOrderCorrect (svc.filter (fun p => !(isInFieldOrder p.1 fo))) fo = true := by
  rw [isFieldOrderCorrect]
  apply fieldOrderScan_all_absent
  intro k hk
  rcases List.mem_map.mp hk with ⟨p, hp, rfl⟩
  rcases List.mem_filter.mp hp with ⟨_, hpred⟩
  simpa using hpred

/-- The non-canonical fields of the service, in original relative order,
with alphabetized values: what the fixer's second loop appends. -/
def remainingPart (cfg : Config) (svc : SvcMap) (fo : List String) : SvcMap :=
  (svc.filter (fun p => !(isInFieldOrder p.1 fo))).map
    (fun p => (p.1, (alphabetizeField p.1 p.2 cfg).1))

/-- The change messages of the fixer's second loop. -/
def remainingMsgs (name : String) (cfg : Config) (svc : SvcMap) (fo : List String) :
    List String :=
  (svc.filter (fun p => !(isInFieldOrder p.1 fo))).filterMap
    (fun p => if (alphabetizeField p.1 p.2 cfg).2
      then some (alphaChangeMsg name p.1) else none)

/-- Whether the second loop alphabetized anything. -/
def remainingChanged (cfg : Config) (svc : SvcMap) (fo : List String) : Bool :=
  (svc.filter (fun p => !(isInFieldOrder p.1 fo))).any
    (fun p => (alphabetizeField p.1 p.2 cfg).2)

theorem canonicalPart_keys (cfg : Config) (svc : SvcMap) (fo : List String) :
    (canonicalPart cfg svc fo).map (fun p => p.1) =
      (firstDedup fo).filter (fun f => (List.lookup f svc).isSome) := by
  rw [canonicalPart]
  induction firstDedup fo with
  | nil => rfl
  | cons f fs ih =>
      rw [List.filterMap_cons, List.filter_cons]
      cases hf : List.lookup f svc with
      | some v => simp [ih]
      | none => simp [ih]

theorem mem_canonicalPart_key {cfg : Config} {svc : SvcMap} {fo : List String}
    {q : String × Value} (hq : q ∈ canonicalPart cfg svc fo) :
    isInFieldOrder q.1 fo = true := by
  have : q.1 ∈ (canonicalPart cfg svc fo).map (fun p => p.1) :=
    List.mem_map.mpr ⟨q, hq, rfl⟩
  rw [canonicalPart_keys] at this
  rcases List.mem_filter.mp this with ⟨hmem, _⟩
  rw [mem_firstDedup] at hmem
  rw [isInFieldOrder, List.any_eq_true]
  exact ⟨q.1, hmem, by simp⟩

theorem canonicalPart_keys_nodup (cfg : Config) (svc : SvcMap) (fo : List String) :
    ((canonicalPart cfg svc fo).map (fun p => p.1)).Nodup := by
  rw [canonicalPart_keys]
  exact List.Nodup.sublist (List.filter_sublist _) (nodup_firstDedup fo)

/-- The full closed form of `fixService` on a well-formed (duplicate-free)
service map: non-canonical fields stay in front in their original
relative order, canonical fields follow in canonical order, every value
is alphabetized, the change log collects canonical-loop messages then
remaining-loop messages, and no `reordered` record is ever produced. -/
theorem fixService_eq (name : String) (cfg : Config) (svc : SvcMap) (fo : List String)
    (hsvc : (svc.map (fun p => p.1)).Nodup) :
    fixService name svc fo cfg =
      { svc := remainingPart cfg svc fo ++ canonicalPart cfg svc fo,
        fixed := canonicalChanged cfg svc fo || remainingChanged cfg svc fo,
        changes := canonicalMsgs name cfg svc fo ++ remainingMsgs name cfg svc fo } := by
  have hsvc1nd : ((svc.filter (fun p => !(isInFieldOrder p.1 fo))).map
      (fun p => p.1)).Nodup :=
    List.Nodup.sublist (List.Sublist.map _ (List.filter_sublist _)) hsvc
  have hdisj : ∀ p ∈ svc.filter (fun p => !(isInFieldOrder p.1 fo)),
      ∀ q ∈ canonicalPart cfg svc fo, q.1 ≠ p.1 := by
    intro p hp q hq he
    rcases List.mem_filter.mp hp with ⟨_, hpred⟩
    have := mem_canonicalPart_key hq
    rw [he] at this
    rw [this] at hpred
    simp at hpred
  unfold fixService
  rw [fixCanonicalLoop_eq name cfg fo svc]
  simp only
  rw [fixRemainingLoop_eq name cfg _ _ hdisj hsvc1nd]
  simp only
  rw [isFieldOrderCorrect_filtered]
  simp only [Bool.not_true, Bool.or_false]
  rw [show (if (false : Bool) = true then [reorderMsg name] else []) = [] from rfl,
    List.append_nil]
  have hstep1 : copyBack (svc.filter (fun p => !(isInFieldOrder p.1 fo)))
      (canonicalPart cfg svc fo ++
        (svc.filter (fun p => !(isInFieldOrder p.1 fo))).map
          (fun p => (p.1, (alphabetizeField p.1 p.2 cfg).1))) =
      remainingPart cfg svc fo ++ canonicalPart cfg svc fo := by
    rw [copyBack_append]
    have h1 : copyBack (svc.filter (fun p => !(isInFieldOrder p.1 fo)))
        (canonicalPart cfg svc fo) =
        svc.filter (fun p => !(isInFieldOrder p.1 fo)) ++ canonicalPart cfg svc fo :=
      copyBack_disjoint _ _ (fun p hp q hq => Ne.symm (hdisj q hq p hp))
        (canonicalPart_keys_nodup cfg svc fo)
    rw [h1]
    have hnd2 : ((([] : SvcMap) ++ svc.filter (fun p => !(isInFieldOrder p.1 fo)) ++
        canonicalPart cfg svc fo).map (fun p => p.1)).Nodup := by
      simp only [List.nil_append, List.map_append]
      rw [List.nodup_append]
      refine ⟨hsvc1nd, canonicalPart_keys_nodup cfg svc fo, ?_⟩
      intro a ha hb
      rcases List.mem_map.mp ha with ⟨p, hp, rfl⟩
      rcases List.mem_map.mp hb with ⟨q, hq, he⟩
      exact hdisj p hp q hq he
    have := copyBack_update (svc.filter (fun p => !(isInFieldOrder p.1 fo))) []
      (canonicalPart cfg svc fo) (fun f v => (alphabetizeField f v cfg).1) hnd2
    simpa [remainingPart] using this
  rw [hstep1]
  rfl

/-! ## Lookup in the fixed service map -/

theorem lookup_filter_of_key {pred : String × Value → Bool} {f : String} :
    ∀ (svc : SvcMap), (∀ v, pred (f, v) = true) →
      List.lookup f (svc.filter pred) = List.lookup f svc
  | [], _ => rfl
  | (k, v) :: rest, hp => by
      rw [List.filter_cons]
      by_cases hk : k = f
      · subst hk
        rw [hp v]
        simp [lookup_cons_svc]
      · by_cases hpred : pred (k, v) = true
        · rw [hpred]
          simp only [if_true, lookup_cons_svc]
          rw [if_neg hk, if_neg hk]
          exact lookup_filter_of_key rest hp
        · rw [Bool.not_eq_true] at hpred
          rw [hpred]
          simp only [Bool.false_eq_true, if_false, lookup_cons_svc]
          rw [if_neg hk]
          exact lookup_filter_of_key rest hp

theorem lookup_filter_none {pred : String × Value → Bool} {f : String}
    (svc : SvcMap) (hp : ∀ v, pred (f, v) = false) :
    List.lookup f (svc.filter pred) = none := by
  rw [lookup_eq_none_iff]
  intro p hpmem he
  rcases List.mem_filter.mp hpmem with ⟨_, hpred⟩
  obtain ⟨k, v⟩ := p
  simp only at he
  subst he
  rw [hp v] at hpred
  exact Bool.false_ne_true hpred

theorem lookup_filterMap_keys (h : String → Option Value) (gg : String → Value → Value) :
    ∀ (keys : List String), keys.Nodup → ∀ (f : String),
      List.lookup f (keys.filterMap (fun k => (h k).map (fun v => (k, gg k v)))) =
        if f ∈ keys then (h f).map (gg f) else none
  | [], _, f => by simp
  | k :: ks, hnd, f => by
      rw [List.nodup_cons] at hnd
      cases hk : h k with
      | some v =>
          rw [@List.filterMap_cons_some _ _ (fun k => (h k).map (fun v => (k, gg k v)))
            k ks (k, gg k v) (by simp only [hk]; rfl)]
          rw [lookup_cons_svc]
          by_cases hf : k = f
          · subst hf
            rw [if_pos rfl, if_pos (by simp), hk]
            rfl
          · rw [if_neg hf, lookup_filterMap_keys h gg ks hnd.2 f]
            by_cases hmem : f ∈ ks
            · rw [if_pos hmem, if_pos (List.mem_cons_of_mem _ hmem)]
            · rw [if_neg hmem, if_neg (by
                rw [List.mem_cons]
                rintro (rfl | hmem2)
                · exact hf rfl
                · exact hmem hmem2)]
      | none =>
          rw [@List.filterMap_cons_none _ _ (fun k => (h k).map (fun v => (k, gg k v)))
            k ks (by simp only [hk]; rfl)]
          rw [lookup_filterMap_keys h gg ks hnd.2 f]
          by_cases hf : k = f
          · subst hf
            rw [if_neg (fun hmem => hnd.1 hmem), if_pos (by simp), hk]
            rfl
          · by_cases hmem : f ∈ ks
            · rw [if_pos hmem, if_pos (List.mem_cons_of_mem _ hmem)]
            · rw [if_neg hmem, if_neg (by
                rw [List.mem_cons]
                rintro (rfl | hmem2)
                · exact hf rfl
                · exact hmem hmem2)]

theorem lookup_canonicalPart (cfg : Config) (svc : SvcMap) (fo : List String) (f : String) :
    List.lookup f (canonicalPart cfg svc fo) =
      if isInFieldOrder f fo = true
        then (List.lookup f svc).map (fun v => (alphabetizeField f v cfg).1)
        else none := by
  rw [canonicalPart]
  rw [lookup_filterMap_keys (fun k => List.lookup k svc)
    (fun k v => (alphabetizeField k v cfg).1) (firstDedup fo) (nodup_firstDedup fo) f]
  by_cases hmem : f ∈ firstDedup fo
  · rw [if_pos hmem, if_pos]
    rw [mem_firstDedup] at hmem
    rw [isInFieldOrder, List.any_eq_true]
    exact ⟨f, hmem, by simp⟩
  · rw [if_neg hmem, if_neg]
    rw [mem_firstDedup] at hmem
    intro hcon
    rw [isInFieldOrder, List.any_eq_true] at hcon
    obtain ⟨x, hx, hxf⟩ := hcon
    rw [beq_iff_eq] at hxf
    subst hxf
    exact hmem hx

theorem lookup_map_alpha (cfg : Config) (f : String) :
    ∀ m : SvcMap,
      List.lookup f (m.map (fun p => (p.1, (alphabetizeField p.1 p.2 cfg).1))) =
        (List.lookup f m).map (fun v => (alphabetizeField f v cfg).1)
  | [] => rfl
  | (k, v) :: rest => by
      by_cases h : k = f
      · subst h
        simp only [List.map_cons, lookup_cons_svc, if_pos rfl]
        rfl
      · simp only [List.map_cons, lookup_cons_svc, if_neg h]
        exact lookup_map_alpha cfg f rest

/-- Looking up any field in the fixed service map returns the original
value, alphabetized. -/
theorem fixService_lookup (name : String) (cfg : Config) (svc : SvcMap)
    (fo : List String) (hsvc : (svc.map (fun p => p.1)).Nodup) (f : String) :
    List.lookup f (fixService name svc fo cfg).svc =
      (List.lookup f svc).map (fun v => (alphabetizeField f v cfg).1) := by
  rw [fixService_eq name cfg svc fo hsvc]
  simp only
  rw [lookup_append_svc]
  by_cases hin : isInFieldOrder f fo = true
  · have h1 : List.lookup f (remainingPart cfg svc fo) = none := by
      rw [remainingPart, lookup_map_alpha]
      rw [lookup_filter_none svc (fun v => by simp [hin])]
      rfl
    rw [h1, lookup_canonicalPart, if_pos hin]
    rfl
  · rw [Bool.not_eq_true] at hin
    have h1 : List.lookup f (remainingPart cfg svc fo) =
        (List.lookup f svc).map (fun v => (alphabetizeField f v cfg).1) := by
      rw [remainingPart, lookup_map_alpha]
      rw [lookup_filter_of_key svc (fun v => by simp [hin])]
    rw [h1, lookup_canonicalPart, if_neg (by simp [hin])]
    cases List.lookup f svc <;> rfl

/-! ## Idempotence of `fixService` -/

theorem alphabetizeField_idem_fst (field : String) (v : Value) (cfg : Config) :
    (alphabetizeField field (alphabetizeField field v cfg).1 cfg).1 =
      (alphabetizeField field v cfg).1 := by
  rw [alphabetizeField_idem]

theorem alphabetizeField_idem_snd (field : String) (v : Value) (cfg : Config) :
    (alphabetizeField field (alphabetizeField field v cfg).1 cfg).2 = false := by
  rw [alphabetizeField_idem]

theorem mem_remainingPart_key {cfg : Config} {svc : SvcMap} {fo : List String}
    {q : String × Value} (hq : q ∈ remainingPart cfg svc fo) :
    isInFieldOrder q.1 fo = false := by
  rw [remainingPart] at hq
  rcases List.mem_map.mp hq with ⟨p, hp, rfl⟩
  rcases List.mem_filter.mp hp with ⟨_, hpred⟩
  simpa using hpred

theorem fixService_keys_nodup (name : String) (cfg : Config) (svc : SvcMap)
    (fo : List String) (hsvc : (svc.map (fun p => p.1)).Nodup) :
    (((fixService name svc fo cfg).svc).map (fun p => p.1)).Nodup := by
  rw [fixService_eq name cfg svc fo hsvc]
  simp only [List.map_append]
  rw [List.nodup_append]
  refine ⟨?_, canonicalPart_keys_nodup cfg svc fo, ?_⟩
  · rw [remainingPart]
    have : ((svc.filter (fun p => !(isInFieldOrder p.1 fo))).map
        (fun p => (p.1, (alphabetizeField p.1 p.2 cfg).1))).map (fun p => p.1) =
        (svc.filter (fun p => !(isInFieldOrder p.1 fo))).map (fun p => p.1) := by
      rw [List.map_map]
      rfl
    rw [this]
    exact List.Nodup.sublist (List.Sublist.map _ (List.filter_sublist _)) hsvc
  · intro a ha hb
    rcases List.mem_map.mp ha with ⟨p, hp, rfl⟩
    rcases List.mem_map.mp hb with ⟨q, hq, he⟩
    have h1 := mem_remainingPart_key hp
    have h2 := mem_canonicalPart_key hq
    rw [he] at h2
    rw [h2] at h1
    exact absurd h1 (by simp)

theorem fixService_filter_unknown (name : String) (cfg : Config) (svc : SvcMap)
    (fo : List String) (hsvc : (svc.map (fun p => p.1)).Nodup) :
    ((fixService name svc fo cfg).svc).filter (fun p => !(isInFieldOrder p.1 fo)) =
      remainingPart cfg svc fo := by
  rw [fixService_eq name cfg svc fo hsvc]
  simp only [List.filter_append]
  rw [List.filter_eq_self.mpr (fun q hq => by simp [mem_remainingPart_key hq]),
    List.filter_eq_nil_iff.mpr (fun q hq => by simp [mem_canonicalPart_key hq])]
  simp

/-- Running `fixService` on its own output changes nothing: the map comes
back identical, `fixed` is `false` and the change log is empty. -/
theorem fixService_idem (name : String) (cfg : Config) (svc : SvcMap) (fo : List String)
    (hsvc : (svc.map (fun p => p.1)).Nodup) :
    fixService name ((fixService name svc fo cfg).svc) fo cfg =
      { svc := (fixService name svc fo cfg).svc, fixed := false, changes := [] } := by
  have hnd : (((fixService name svc fo cfg).svc).map (fun p => p.1)).Nodup :=
    fixService_keys_nodup name cfg svc fo hsvc
  have hlk : ∀ f, List.lookup f ((fixService name svc fo cfg).svc) =
      (List.lookup f svc).map (fun v => (alphabetizeField f v cfg).1) :=
    fixService_lookup name cfg svc fo hsvc
  have hflt := fixService_filter_unknown name cfg svc fo hsvc
  rw [fixService_eq name cfg ((fixService name svc fo cfg).svc) fo hnd]
  have hrem : remainingPart cfg ((fixService name svc fo cfg).svc) fo =
      remainingPart cfg svc fo := by
    rw [remainingPart, hflt, remainingPart, List.map_map]
    apply List.map_congr_left
    intro p _
    simp only [Function.comp]
    rw [alphabetizeField_idem_fst]
  have hcan : canonicalPart cfg ((fixService name svc fo cfg).svc) fo =
      canonicalPart cfg svc fo := by
    rw [canonicalPart, canonicalPart]
    apply List.filterMap_congr
    intro f _
    rw [hlk f]
    cases List.lookup f svc with
    | none => rfl
    | some v =>
        simp only [Option.map_some']
        rw [alphabetizeField_idem_fst]
  have hcc : canonicalChanged cfg ((fixService name svc fo cfg).svc) fo = false := by
    rw [canonicalChanged, List.any_eq_false]
    intro f _
    rw [hlk f]
    cases List.lookup f svc with
    | none => simp
    | some v =>
        simp only [Option.map_some', Option.getD_some]
        rw [alphabetizeField_idem_snd]
        simp
  have hrc : remainingChanged cfg ((fixService name svc fo cfg).svc) fo = false := by
    rw [remainingChanged, List.any_eq_false]
    intro p hp
    rw [hflt, remainingPart] at hp
    rcases List.mem_map.mp hp with ⟨q, _, rfl⟩
    simp only
    rw [alphabetizeField_idem_snd]
    simp
  have hcm : canonicalMsgs name cfg ((fixService name svc fo cfg).svc) fo = [] := by
    rw [canonicalMsgs, List.filterMap_eq_nil_iff]
    intro f _
    rw [hlk f]
    cases List.lookup f svc with
    | none => rfl
    | some v =>
        simp only [Option.map_some', Option.some_bind]
        rw [alphabetizeField_idem_snd]
        rfl
  have hrm : remainingMsgs name cfg ((fixService name svc fo cfg).svc) fo = [] := by
    rw [remainingMsgs, List.filterMap_eq_nil_iff]
    intro p hp
    rw [hflt, remainingPart] at hp
    rcases List.mem_map.mp hp with ⟨q, _, rfl⟩
    simp only
    rw [alphabetizeField_idem_snd]
    rfl
  rw [hrem, hcan, hcc, hrc, hcm, hrm]
  rw [fixService_eq name cfg svc fo hsvc]
  rfl

/-! ## Key preservation of `fixService` -/

theorem lookup_isSome_iff_mem (m : SvcMap) (k : String) :
    (List.lookup k m).isSome = true ↔ k ∈ m.map (fun p => p.1) := by
  constructor
  · intro h
    by_contra hmem
    have : List.lookup k m = none := by
      rw [lookup_eq_none_iff]
      intro p hp he
      exact hmem (List.mem_map.mpr ⟨p, hp, he⟩)
    rw [this] at h
    simp at h
  · intro hmem
    rcases List.mem_map.mp hmem with ⟨p, hp, rfl⟩
    cases hl : List.lookup p.1 m with
    | some v => rfl
    | none =>
        rw [lookup_eq_none_iff] at hl
        exact absurd rfl (hl p hp)

theorem fixService_keys_perm (name : String) (cfg : Config) (svc : SvcMap)
    (fo : List String) (hsvc : (svc.map (fun p => p.1)).Nodup) :
    List.Perm (((fixService name svc fo cfg).svc).map (fun p => p.1))
      (svc.map (fun p => p.1)) := by
  rw [fixService_eq name cfg svc fo hsvc]
  simp only [List.map_append]
  have hrk : (remainingPart cfg svc fo).map (fun p => p.1) =
      (svc.filter (fun p => !(isInFieldOrder p.1 fo))).map (fun p => p.1) := by
    rw [remainingPart, List.map_map]
    rfl
  have hcankeys : List.Perm ((canonicalPart cfg svc fo).map (fun p => p.1))
      ((svc.filter (fun p => isInFieldOrder p.1 fo)).map (fun p => p.1)) := by
    apply List.perm_of_nodup_nodup_toFinset_eq
    · exact canonicalPart_keys_nodup cfg svc fo
    · exact List.Nodup.sublist (List.Sublist.map _ (List.filter_sublist _)) hsvc
    · apply Finset.ext
      intro a
      simp only [List.mem_toFinset]
      rw [canonicalPart_keys]
      constructor
      · intro ha
        rcases List.mem_filter.mp ha with ⟨hmem, hsome⟩
        rw [mem_firstDedup] at hmem
        rw [lookup_isSome_iff_mem] at hsome
        rcases List.mem_map.mp hsome with ⟨p, hp, rfl⟩
        refine List.mem_map.mpr ⟨p, List.mem_filter.mpr ⟨hp, ?_⟩, rfl⟩
        rw [isInFieldOrder, List.any_eq_true]
        exact ⟨p.1, hmem, by simp⟩
      · intro ha
        rcases List.mem_map.mp ha with ⟨p, hp, rfl⟩
        rcases List.mem_filter.mp hp with ⟨hmem, hin⟩
        apply List.mem_filter.mpr
        constructor
        · rw [mem_firstDedup]
          rw [isInFieldOrder, List.any_eq_true] at hin
          obtain ⟨x, hx, hxe⟩ := hin
          rw [beq_iff_eq] at hxe
          subst hxe
          exact hx
        · rw [lookup_isSome_iff_mem]
          exact List.mem_map.mpr ⟨p, hmem, rfl⟩
  rw [hrk]
  have hfinal : List.Perm
      ((svc.filter (fun pr => isInFieldOrder pr.1 fo)).map (fun p => p.1) ++
        (svc.filter (fun pr => !(isInFieldOrder pr.1 fo))).map (fun p => p.1))
      (svc.map (fun p => p.1)) := by
    have := (List.filter_append_perm
      (fun pr : String × Value => isInFieldOrder pr.1 fo) svc).map (fun p => p.1)
    simpa [List.map_append] using this
  exact (List.Perm.append_left _ hcankeys).trans (List.perm_append_comm.trans hfinal)

/-! ## Value preservation up to entry permutation -/

/-- `w` equals `v` up to a permutation of its top-level entries: the only
change an alphabetizer may make (mapping values additionally require the
Go-map well-formedness that keys are duplicate-free). -/
def ValueSim : Value → Value → Prop
  | .seq l, .seq m => List.Perm m l
  | .map l, .map m => ((l.map (fun p : String × Value => p.1)).Nodup → List.Perm m l)
  | a, b => b = a

theorem ValueSim_refl (v : Value) : ValueSim v v := by
  cases v <;> simp [ValueSim]

theorem filterMap_lookup_self :
    ∀ m : List (String × Value), ((m.map (fun p => p.1)).Nodup) →
      (m.map (fun p => p.1)).filterMap
        (fun k => (List.lookup k m).map (fun x => (k, x))) = m
  | [], _ => rfl
  | (k, v) :: rest, hnd => by
      simp only [List.map_cons, List.nodup_cons] at hnd
      rw [List.map_cons, List.filterMap_cons]
      rw [lookup_cons_svc, if_pos rfl]
      simp only [Option.map_some']
      congr 1
      have hcongr : ∀ k' ∈ rest.map (fun p => p.1),
          (List.lookup k' ((k, v) :: rest)).map (fun x => (k', x)) =
            (List.lookup k' rest).map (fun x => (k', x)) := by
        intro k' hk'
        have : k ≠ k' := fun he => hnd.1 (he ▸ hk')
        rw [lookup_cons_svc, if_neg this]
      rw [List.filterMap_congr hcongr]
      exact filterMap_lookup_self rest hnd.2

theorem alphaMapBranch_sim {m : List (String × Value)} :
    ((m.map (fun p : String × Value => p.1)).Nodup) →
      List.Perm ((sortByKey id (m.map (fun p => p.1))).filterMap
        (fun k => (List.lookup k m).map (fun x => (k, x)))) m := by
  intro hnd
  have hperm := sortByKey_perm (id : String → String) (m.map (fun p => p.1))
  have := hperm.filterMap (fun k => (List.lookup k m).map (fun x => (k, x)))
  rw [filterMap_lookup_self m hnd] at this
  exact this

theorem alphabetizeEnvironment_sim (v : Value) :
    ValueSim v (alphabetizeEnvironment v).1 := by
  match v with
  | .str s => exact ValueSim_refl _
  | .boolean b => exact ValueSim_refl _
  | .intv n => exact ValueSim_refl _
  | .null => exact ValueSim_refl _
  | .seq items =>
      by_cases hlen : items.length < 2
      · simp only [alphabetizeEnvironment, if_pos hlen]
        exact ValueSim_refl _
      · by_cases hs : items = sortByKey extractEnvKey items
        · simp only [alphabetizeEnvironment, if_neg hlen, if_pos hs]
          exact ValueSim_refl _
        · simp only [alphabetizeEnvironment, if_neg hlen, if_neg hs]
          exact sortByKey_perm _ items
  | .map m =>
      by_cases hlen : m.length < 2
      · simp only [alphabetizeEnvironment, if_pos hlen]
        exact ValueSim_refl _
      · by_cases hs : m.map (fun p => p.1) = sortByKey id (m.map (fun p => p.1))
        · simp only [alphabetizeEnvironment, if_neg hlen, if_pos hs]
          exact ValueSim_refl _
        · simp only [alphabetizeEnvironment, if_neg hlen, if_neg hs]
          exact fun hnd => alphaMapBranch_sim hnd

theorem alphabetizeVolumes_sim (v : Value) :
    ValueSim v (alphabetizeVolumes v).1 := by
  match v with
  | .str s => exact ValueSim_refl _
  | .boolean b => exact ValueSim_refl _
  | .intv n => exact ValueSim_refl _
  | .null => exact ValueSim_refl _
  | .map m => exact ValueSim_refl _
  | .seq items =>
      by_cases hlen : items.length < 2
      · simp only [alphabetizeVolumes, if_pos hlen]
        exact ValueSim_refl _
      · by_cases hs : items = sortByKey extractVolumeKey items
        · simp only [alphabetizeVolumes, if_neg hlen, if_pos hs]
          exact ValueSim_refl _
        · simp only [alphabetizeVolumes, if_neg hlen, if_neg hs]
          exact sortByKey_perm _ items

theorem alphabetizeLabels_sim (v : Value) :
    ValueSim v (alphabetizeLabels v).1 := by
  match v with
  | .str s => exact ValueSim_refl _
  | .boolean b => exact ValueSim_refl _
  | .intv n => exact ValueSim_refl _
  | .null => exact ValueSim_refl _
  | .seq items =>
      by_cases hlen : items.length < 2
      · simp only [alphabetizeLabels, if_pos hlen]
        exact ValueSim_refl _
      · by_cases hs : items = sortByKey extractLabelKey items
        · simp only [alphabetizeLabels, if_neg hlen, if_pos hs]
          exact ValueSim_refl _
        · simp only [alphabetizeLabels, if_neg hlen, if_neg hs]
          exact sortByKey_perm _ items
  | .map m =>
      by_cases hlen : m.length < 2
      · simp only [alphabetizeLabels, if_pos hlen]
        exact ValueSim_refl _
      · by_cases hs : m.map (fun p => p.1) = sortByKey id (m.map (fun p => p.1))
        · simp only [alphabetizeLabels, if_neg hlen, if_pos hs]
          exact ValueSim_refl _
        · simp only [alphabetizeLabels, if_neg hlen, if_neg hs]
          exact fun hnd => alphaMapBranch_sim hnd

/-- Every alphabetizer result is the original value up to a permutation
of its top-level entries. -/
theorem alphabetizeField_sim (field : String) (v : Value) (cfg : Config) :
    ValueSim v (alphabetizeField field v cfg).1 := by
  by_cases h1 : field = "environment"
  · subst h1
    by_cases hs : cfg.ShouldAlphabetize "environment" = true
    · rw [alphabetizeField, hs]
      exact alphabetizeEnvironment_sim v
    · rw [Bool.not_eq_true] at hs
      rw [alphabetizeField, hs]
      exact ValueSim_refl _
  · by_cases h2 : field = "volumes"
    · subst h2
      by_cases hs : cfg.ShouldAlphabetize "volumes" = true
      · rw [alphabetizeField, hs]
        exact alphabetizeVolumes_sim v
      · rw [Bool.not_eq_true] at hs
        rw [alphabetizeField, hs]
        exact ValueSim_refl _
    · by_cases h3 : field = "labels"
      · subst h3
        by_cases hs : cfg.ShouldAlphabetize "labels" = true
        · rw [alphabetizeField, hs]
          exact alphabetizeLabels_sim v
        · rw [Bool.not_eq_true] at hs
          rw [alphabetizeField, hs]
          exact ValueSim_refl _
      · have hfalse : cfg.ShouldAlphabetize field = false := by
          unfold Config.ShouldAlphabetize
          split
          all_goals simp_all
        rw [alphabetizeField.eq_def,
          if_pos (show (!cfg.ShouldAlphabetize field) = true by rw [hfalse]; rfl)]
        exact ValueSim_refl _

/-! ## Checker acceptance after fixing -/

theorem firstDedup_of_nodup : ∀ l : List String, l.Nodup → firstDedup l = l
  | [], _ => by rw [firstDedup]
  | f :: fs, hnd => by
      rw [List.nodup_cons] at hnd
      rw [firstDedup]
      have : fs.filter (fun g => !(g == f)) = fs := by
        rw [List.filter_eq_self]
        intro g hg
        have : g ≠ f := fun he => hnd.1 (he ▸ hg)
        simp [this]
      rw [this, firstDedup_of_nodup fs hnd.2]
termination_by l => l.length
decreasing_by
  simp only [List.length_cons]
  omega

theorem filterMap_zip_self {β : Type} {f : String × String → Option β}
    (hf : ∀ a, f (a, a) = none) : ∀ l : List String, (l.zip l).filterMap f = []
  | [] => rfl
  | a :: t => by
      rw [List.zip_cons_cons, List.filterMap_cons_none (hf a)]
      exact filterMap_zip_self hf t


/-- `validateAlphabetization` accepts a service whose special-field
values all satisfy the per-field acceptance conditions. -/
theorem envAlphaViolations_nil_of {name : String} {s : Service} {cfg : Config}
    (h : ∀ v, List.lookup "environment" s.Config = some v →
      cfg.ShouldAlphabetize "environment" = true → envEntriesOK v) :
    envAlphaViolations name s cfg = [] := by
  rw [envAlphaViolations]
  by_cases hs : cfg.ShouldAlphabetize "environment" = true
  · rw [if_pos hs]
    cases hl : List.lookup "environment" s.Config with
    | none => rfl
    | some v =>
        have hok := h v hl hs
        match v with
        | .str _ => rfl
        | .boolean _ => rfl
        | .intv _ => rfl
        | .null => rfl
        | .seq env => simp [(isAlphabetized_iff env extractEnvKey).mpr hok]
        | .map m => simp [(isMapAlphabetized_iff m).mpr hok]
  · rw [if_neg hs]

theorem volAlphaViolations_nil_of {name : String} {s : Service} {cfg : Config}
    (h : ∀ v, List.lookup "volumes" s.Config = some v →
      cfg.ShouldAlphabetize "volumes" = true → volEntriesOK v) :
    volAlphaViolations name s cfg = [] := by
  rw [volAlphaViolations]
  by_cases hs : cfg.ShouldAlphabetize "volumes" = true
  · rw [if_pos hs]
    cases hl : List.lookup "volumes" s.Config with
    | none => rfl
    | some v =>
        have hok := h v hl hs
        match v with
        | .str _ => rfl
        | .boolean _ => rfl
        | .intv _ => rfl
        | .null => rfl
        | .map _ => rfl
        | .seq vols => simp [(isAlphabetized_iff vols extractVolumeKey).mpr hok]
  · rw [if_neg hs]

theorem labelAlphaViolations_nil_of {name : String} {s : Service} {cfg : Config}
    (h : ∀ v, List.lookup "labels" s.Config = some v →
      cfg.ShouldAlphabetize "labels" = true → labEntriesOK v) :
    labelAlphaViolations name s cfg = [] := by
  rw [labelAlphaViolations]
  by_cases hs : cfg.ShouldAlphabetize "labels" = true
  · rw [if_pos hs]
    cases hl : List.lookup "labels" s.Config with
    | none => rfl
    | some v =>
        have hok := h v hl hs
        match v with
        | .str _ => rfl
        | .boolean _ => rfl
        | .intv _ => rfl
        | .null => rfl
        | .seq labels => simp [(isAlphabetized_iff labels extractLabelKey).mpr hok]
        | .map m => simp [(isMapAlphabetized_iff m).mpr hok]
  · rw [if_neg hs]

theorem validateAlphabetization_nil_of {name : String} {s : Service} {cfg : Config}
    (henv : ∀ v, List.lookup "environment" s.Config = some v →
      cfg.ShouldAlphabetize "environment" = true → envEntriesOK v)
    (hvol : ∀ v, List.lookup "volumes" s.Config = some v →
      cfg.ShouldAlphabetize "volumes" = true → volEntriesOK v)
    (hlab : ∀ v, List.lookup "labels" s.Config = some v →
      cfg.ShouldAlphabetize "labels" = true → labEntriesOK v) :
    validateAlphabetization name s cfg = [] := by
  rw [validateAlphabetization, envAlphaViolations_nil_of henv,
    volAlphaViolations_nil_of hvol, labelAlphaViolations_nil_of hlab]
  rfl

/-- Conversely, an accepted service's special-field values satisfy the
acceptance conditions. -/
theorem envOK_of_nil {name : String} {s : Service} {cfg : Config}
    (h : envAlphaViolations name s cfg = []) :
    ∀ v, List.lookup "environment" s.Config = some v →
      cfg.ShouldAlphabetize "environment" = true → envEntriesOK v := by
  intro v hl hs
  rw [envAlphaViolations, if_pos hs, hl] at h
  cases v with
  | str _ => trivial
  | boolean _ => trivial
  | intv _ => trivial
  | null => trivial
  | seq env =>
      cases hAl : isAlphabetized env extractEnvKey with
      | true => exact (isAlphabetized_iff env extractEnvKey).mp hAl
      | false => simp [hAl] at h
  | map m =>
      cases hAl : isMapAlphabetized m with
      | true => exact (isMapAlphabetized_iff m).mp hAl
      | false => simp [hAl] at h

theorem volOK_of_nil {name : String} {s : Service} {cfg : Config}
    (h : volAlphaViolations name s cfg = []) :
    ∀ v, List.lookup "volumes" s.Config = some v →
      cfg.ShouldAlphabetize "volumes" = true → volEntriesOK v := by
  intro v hl hs
  rw [volAlphaViolations, if_pos hs, hl] at h
  cases v with
  | str _ => trivial
  | boolean _ => trivial
  | intv _ => trivial
  | null => trivial
  | map _ => trivial
  | seq vols =>
      cases hAl : isAlphabetized vols extractVolumeKey with
      | true => exact (isAlphabetized_iff vols extractVolumeKey).mp hAl
      | false => simp [hAl] at h

theorem labOK_of_nil {name : String} {s : Service} {cfg : Config}
    (h : labelAlphaViolations name s cfg = []) :
    ∀ v, List.lookup "labels" s.Config = some v →
      cfg.ShouldAlphabetize "labels" = true → labEntriesOK v := by
  intro v hl hs
  rw [labelAlphaViolations, if_pos hs, hl] at h
  cases v with
  | str _ => trivial
  | boolean _ => trivial
  | intv _ => trivial
  | null => trivial
  | seq labels =>
      cases hAl : isAlphabetized labels extractLabelKey with
      | true => exact (isAlphabetized_iff labels extractLabelKey).mp hAl
      | false => simp [hAl] at h
  | map m =>
      cases hAl : isMapAlphabetized m with
      | true => exact (isMapAlphabetized_iff m).mp hAl
      | false => simp [hAl] at h

theorem alpha_blocks_nil {name : String} {s : Service} {cfg : Config}
    (h : validateAlphabetization name s cfg = []) :
    envAlphaViolations name s cfg = [] ∧ volAlphaViolations name s cfg = [] ∧
      labelAlphaViolations name s cfg = [] := by
  rw [validateAlphabetization] at h
  rcases List.append_eq_nil.mp h with ⟨h12, h3⟩
  rcases List.append_eq_nil.mp h12 with ⟨h1, h2⟩
  exact ⟨h1, h2, h3⟩

/-! ## Spec-side views of the order check -/

/-- "actual": the declared field order restricted to canonical fields. -/
def actualFieldsOf (s : Service) (fo : List String) : List String :=
  s.FieldOrder.filter (fun field => isInFieldOrder field fo)

/-- "expected": the canonical order restricted to declared fields. -/
def expectedFieldsOf (s : Service) (fo : List String) : List String :=
  fo.filter (fun field => (List.lookup field s.Config).isSome)

/-- The positional diff: pairwise walk of actual against expected. -/
def positionalViolations (name : String) (s : Service) (fo : List String) :
    List Violation :=
  ((actualFieldsOf s fo).zip (expectedFieldsOf s fo)).filterMap (fun p =>
    if p.1 ≠ p.2 then
      some { type := "order", Service := name, Field := p.1
             Message := s!"field \x27{p.1}\x27 is out of order"
             Expected := p.2, Actual := p.1
             Line := s.Line, Column := s.Column }
    else none)

/-- The strict-mode extras: one violation per unknown declared field. -/
def strictViolationsOf (name : String) (s : Service) (fo : List String)
    (cfg : Config) : List Violation :=
  if cfg.Strict then
    (s.FieldOrder.filter (fun field => !(isInFieldOrder field fo))).map
      (fun field =>
        { type := "order", Service := name, Field := field
          Message := s!"field \x27{field}\x27 is not allowed in strict mode"
          Expected := "", Actual := "", Line := 0, Column := 0 })
  else []

theorem validateFieldOrder_eq (name : String) (s : Service) (fo : List String)
    (cfg : Config) :
    validateFieldOrder name s fo cfg =
      positionalViolations name s fo ++ strictViolationsOf name s fo cfg := rfl

/-! ## Soundness of `fixService` against the checker -/

theorem fixService_actualFields (name : String) (cfg : Config) (svc : SvcMap)
    (fo : List String) (hsvc : (svc.map (fun p => p.1)).Nodup) (hfo : fo.Nodup) :
    actualFieldsOf (serviceOfMap name (fixService name svc fo cfg).svc) fo =
      fo.filter (fun f => (List.lookup f svc).isSome) := by
  rw [actualFieldsOf]
  show ((fixService name svc fo cfg).svc.map (fun p => p.1)).filter
      (fun field => isInFieldOrder field fo) = _
  rw [fixService_eq name cfg svc fo hsvc]
  simp only [List.map_append, List.filter_append]
  rw [List.filter_eq_nil_iff.mpr (fun a ha => by
    rcases List.mem_map.mp ha with ⟨p, hp, rfl⟩
    simp [mem_remainingPart_key hp])]
  rw [List.filter_eq_self.mpr (fun a ha => by
    rcases List.mem_map.mp ha with ⟨q, hq, rfl⟩
    exact mem_canonicalPart_key hq)]
  rw [List.nil_append, canonicalPart_keys, firstDedup_of_nodup fo hfo]

theorem fixService_expectedFields (name : String) (cfg : Config) (svc : SvcMap)
    (fo : List String) (hsvc : (svc.map (fun p => p.1)).Nodup) :
    expectedFieldsOf (serviceOfMap name (fixService name svc fo cfg).svc) fo =
      fo.filter (fun f => (List.lookup f svc).isSome) := by
  rw [expectedFieldsOf]
  apply List.filter_congr
  intro f _
  show (List.lookup f (fixService name svc fo cfg).svc).isSome = _
  rw [fixService_lookup name cfg svc fo hsvc f]
  cases List.lookup f svc <;> rfl

/-- The compliance check accepts the output of `fixService` whenever the
policy has strict mode off and a duplicate-free canonical order. -/
theorem fixService_sound (name : String) (cfg : Config) (svc : SvcMap)
    (fo : List String) (hsvc : (svc.map (fun p => p.1)).Nodup) (hfo : fo.Nodup)
    (hstrict : cfg.Strict = false) :
    validateFieldOrder name (serviceOfMap name (fixService name svc fo cfg).svc) fo cfg
        = [] ∧
      validateAlphabetization name (serviceOfMap name (fixService name svc fo cfg).svc) cfg
        = [] := by
  constructor
  · rw [validateFieldOrder_eq, positionalViolations,
      fixService_actualFields name cfg svc fo hsvc hfo,
      fixService_expectedFields name cfg svc fo hsvc]
    rw [filterMap_zip_self (fun a => by simp)]
    rw [strictViolationsOf, hstrict]
    rfl
  · apply validateAlphabetization_nil_of
    · intro v' hl hs
      have hl' : (List.lookup "environment" svc).map
          (fun v => (alphabetizeField "environment" v cfg).1) = some v' := by
        rw [← fixService_lookup name cfg svc fo hsvc]
        exact hl
      obtain ⟨v, _, rfl⟩ := Option.map_eq_some'.mp hl'
      exact (alphabetizeField_OK "environment" v cfg).1 rfl hs
    · intro v' hl hs
      have hl' : (List.lookup "volumes" svc).map
          (fun v => (alphabetizeField "volumes" v cfg).1) = some v' := by
        rw [← fixService_lookup name cfg svc fo hsvc]
        exact hl
      obtain ⟨v, _, rfl⟩ := Option.map_eq_some'.mp hl'
      exact (alphabetizeField_OK "volumes" v cfg).2.1 rfl hs
    · intro v' hl hs
      have hl' : (List.lookup "labels" svc).map
          (fun v => (alphabetizeField "labels" v cfg).1) = some v' := by
        rw [← fixService_lookup name cfg svc fo hsvc]
        exact hl
      obtain ⟨v, _, rfl⟩ := Option.map_eq_some'.mp hl'
      exact (alphabetizeField_OK "labels" v cfg).2.2 rfl hs

/-! ## Fixing a compliant service is a no-op -/

/-- A checker-accepted service map is left entirely alone by
`fixService`: no change flag and no change messages. -/
theorem fixService_not_fixed (name : String) (cfg : Config) (svc : SvcMap)
    (fo : List String) (hsvc : (svc.map (fun p => p.1)).Nodup)
    (halpha : validateAlphabetization name (serviceOfMap name svc) cfg = []) :
    (fixService name svc fo cfg).fixed = false ∧
      (fixService name svc fo cfg).changes = [] := by
  obtain ⟨h1, h2, h3⟩ := alpha_blocks_nil halpha
  have hOK : ∀ f v, List.lookup f svc = some v → alphabetizeField f v cfg = (v, false) := by
    intro f v hl
    apply alphabetizeField_of_OK
    · rintro rfl hs
      exact envOK_of_nil h1 v hl hs
    · rintro rfl hs
      exact volOK_of_nil h2 v hl hs
    · rintro rfl hs
      exact labOK_of_nil h3 v hl hs
  rw [fixService_eq name cfg svc fo hsvc]
  have hcc : canonicalChanged cfg svc fo = false := by
    rw [canonicalChanged, List.any_eq_false]
    intro f _
    cases hl : List.lookup f svc with
    | none => simp
    | some v =>
        simp only [Option.map_some', Option.getD_some]
        rw [hOK f v hl]
        simp
  have hrc : remainingChanged cfg svc fo = false := by
    rw [remainingChanged, List.any_eq_false]
    intro p hp
    have hpm : p ∈ svc := List.mem_filter.mp hp |>.1
    have hl : List.lookup p.1 svc = some p.2 := by
      obtain ⟨k, v⟩ := p
      exact lookup_some_of_mem_nodup hsvc hpm
    rw [hOK p.1 p.2 hl]
    simp
  have hcm : canonicalMsgs name cfg svc fo = [] := by
    rw [canonicalMsgs, List.filterMap_eq_nil_iff]
    intro f _
    cases hl : List.lookup f svc with
    | none => rfl
    | some v =>
        simp only [Option.some_bind]
        rw [hOK f v hl]
        rfl
  have hrm : remainingMsgs name cfg svc fo = [] := by
    rw [remainingMsgs, List.filterMap_eq_nil_iff]
    intro p hp
    have hpm : p ∈ svc := List.mem_filter.mp hp |>.1
    have hl : List.lookup p.1 svc = some p.2 := by
      obtain ⟨k, v⟩ := p
      exact lookup_some_of_mem_nodup hsvc hpm
    rw [hOK p.1 p.2 hl]
    rfl
  rw [hcc, hrc, hcm, hrm]
  exact ⟨rfl, rfl⟩

/-- Well-formedness carried over from Go: every mapping-valued service
has duplicate-free keys (Go maps cannot have duplicates). -/
def ContentWF (content : List (String × Value)) : Prop :=
  ∀ services, List.lookup "services" content = some (.map services) →
    ∀ p ∈ services, ∀ m, p.2 = Value.map m → ((m.map (fun q => q.1)).Nodup)

/-- Every mapping-valued service of the document is accepted by the
checker (order and alphabetization). -/
def AllServicesCompliant (content : List (String × Value)) (cfg : Config) : Prop :=
  ∀ services, List.lookup "services" content = some (.map services) →
    ∀ p ∈ services, ∀ m, p.2 = Value.map m →
      validateFieldOrder p.1 (serviceOfMap p.1 m) (cfg.GetFieldOrder p.1) cfg = [] ∧
        validateAlphabetization p.1 (serviceOfMap p.1 m) cfg = []

theorem lookup_setK_self (m : SvcMap) (k : String) (v : Value) :
    List.lookup k (setK m k v) = some v := by
  rw [setK]
  by_cases hany : m.any (fun p => p.1 == k) = true
  · rw [if_pos hany]
    rw [List.any_eq_true] at hany
    obtain ⟨p, hp, hpk⟩ := hany
    rw [beq_iff_eq] at hpk
    induction m with
    | nil => simp at hp
    | cons q rest ih =>
        by_cases hq : q.1 = k
        · rw [List.map_cons, if_pos (by simpa using hq)]
          rw [lookup_cons_svc, if_pos hq]
        · rw [List.map_cons, if_neg (by simpa using hq)]
          rw [lookup_cons_svc, if_neg hq]
          rcases List.mem_cons.mp hp with rfl | hp'
          · exact absurd hpk hq
          · exact ih hp'
  · rw [if_neg hany]
    rw [lookup_append_svc]
    have : List.lookup k m = none := by
      rw [lookup_eq_none_iff]
      intro p hp he
      rw [Bool.not_eq_true, List.any_eq_false] at hany
      exact absurd (by simp [he]) (hany p hp)
    rw [this]
    simp [lookup_cons_svc]

theorem fixServiceEntry_idem (cfg : Config) (p : String × Value)
    (hnd : ∀ m, p.2 = Value.map m → ((m.map (fun q => q.1)).Nodup)) :
    fixServiceEntry cfg ((fixServiceEntry cfg p).1) =
      ((fixServiceEntry cfg p).1, ([] : List String), false) := by
  obtain ⟨n, v⟩ := p
  cases v with
  | map m =>
      have hm := hnd m rfl
      have hidem := fixService_idem n cfg m (cfg.GetFieldOrder n) hm
      show fixServiceEntry cfg
          (n, Value.map (fixService n m (cfg.GetFieldOrder n) cfg).svc) = _
      simp only [fixServiceEntry]
      rw [hidem]
  | str s => rfl
  | boolean b => rfl
  | intv k => rfl
  | null => rfl
  | seq l => rfl

theorem FixBytes_all_compliant (cfg : Config) (content : List (String × Value))
    (hwf : ContentWF content) (hc : AllServicesCompliant content cfg) :
    FixBytes content cfg = (content, []) := by
  cases hl : List.lookup "services" content with
  | none =>
      rw [FixBytes, hl]
  | some v =>
      cases v with
      | map services =>
          rw [FixBytes, hl]
          have hany : (services.map (fixServiceEntry cfg)).any (fun r => r.2.2) = false := by
            rw [List.any_eq_false]
            intro r hr
            rcases List.mem_map.mp hr with ⟨p, hp, rfl⟩
            obtain ⟨n, w⟩ := p
            cases w with
            | map m =>
                have hm := hwf services hl (n, Value.map m) hp m rfl
                have hcomp := hc services hl (n, Value.map m) hp m rfl
                have := fixService_not_fixed n cfg m (cfg.GetFieldOrder n) hm hcomp.2
                show ¬(fixServiceEntry cfg (n, Value.map m)).2.2 = true
                rw [fixServiceEntry]
                simp only
                rw [this.1]
                simp
            | str s => simp [fixServiceEntry]
            | boolean b => simp [fixServiceEntry]
            | intv k => simp [fixServiceEntry]
            | null => simp [fixServiceEntry]
            | seq l => simp [fixServiceEntry]
          simp only [fixBytesCore]
          rw [hany]
          rfl
      | str s => rw [FixBytes, hl]
      | boolean b => rw [FixBytes, hl]
      | intv k => rw [FixBytes, hl]
      | null => rw [FixBytes, hl]
      | seq l => rw [FixBytes, hl]

theorem FixBytes_idem (cfg : Config) (content : List (String × Value))
    (hwf : ContentWF content) :
    FixBytes (FixBytes content cfg).1 cfg = ((FixBytes content cfg).1, []) := by
  cases hl : List.lookup "services" content with
  | none =>
      have h0 : FixBytes content cfg = (content, []) := by rw [FixBytes, hl]
      rw [h0]
      rw [FixBytes, hl]
  | some v =>
      cases v with
      | map services =>
          have h0 : FixBytes content cfg = fixBytesCore content cfg services := by
            rw [FixBytes, hl]
          by_cases hfx : (services.map (fixServiceEntry cfg)).any (fun r => r.2.2) = true
          · have h1 : FixBytes content cfg =
                (setK content "services"
                  (Value.map ((services.map (fixServiceEntry cfg)).map (fun r => r.1))),
                 (services.map (fixServiceEntry cfg)).flatMap (fun r => r.2.1)) := by
              rw [h0]
              simp only [fixBytesCore]
              rw [hfx]
              rfl
            rw [h1]
            simp only
            have hl2 : List.lookup "services"
                (setK content "services"
                  (Value.map ((services.map (fixServiceEntry cfg)).map (fun r => r.1)))) =
                some (Value.map ((services.map (fixServiceEntry cfg)).map (fun r => r.1))) :=
              lookup_setK_self content "services" _
            rw [FixBytes, hl2]
            have hany2 : (((services.map (fixServiceEntry cfg)).map (fun r => r.1)).map
                (fixServiceEntry cfg)).any (fun r => r.2.2) = false := by
              rw [List.any_eq_false]
              intro r hr
              rcases List.mem_map.mp hr with ⟨q, hq, rfl⟩
              rcases List.mem_map.mp hq with ⟨r0, hr0, rfl⟩
              rcases List.mem_map.mp hr0 with ⟨p, hp, rfl⟩
              have hnd : ∀ m, p.2 = Value.map m → ((m.map (fun q => q.1)).Nodup) :=
                fun m hm => hwf services hl p hp m hm
              rw [fixServiceEntry_idem cfg p hnd]
              simp
            simp only [fixBytesCore]
            rw [hany2]
            rfl
          · rw [Bool.not_eq_true] at hfx
            have h1 : FixBytes content cfg = (content, []) := by
              rw [h0]
              simp only [fixBytesCore]
              rw [hfx]
              rfl
            rw [h1]
            simp only
            rw [FixBytes, hl]
            simp only [fixBytesCore]
            rw [hfx]
            rfl
      | str s =>
          have h0 : FixBytes content cfg = (content, []) := by rw [FixBytes, hl]
          rw [h0]
          rw [FixBytes, hl]
      | boolean b =>
          have h0 : FixBytes content cfg = (content, []) := by rw [FixBytes, hl]
          rw [h0]
          rw [FixBytes, hl]
      | intv k =>
          have h0 : FixBytes content cfg = (content, []) := by rw [FixBytes, hl]
          rw [h0]
          rw [FixBytes, hl]
      | null =>
          have h0 : FixBytes content cfg = (content, []) := by rw [FixBytes, hl]
          rw [h0]
          rw [FixBytes, hl]
      | seq l =>
          have h0 : FixBytes content cfg = (content, []) := by rw [FixBytes, hl]
          rw [h0]
          rw [FixBytes, hl]

/-! ## Last-write-wins flattening (`GetServices`) -/

theorem lookup_cons_gen {β : Type} (k k' : String) (v : β) (rest : List (String × β)) :
    List.lookup k ((k', v) :: rest) = if k' = k then some v else List.lookup k rest := by
  by_cases h : k' = k
  · subst h
    simp [List.lookup_cons]
  · simp [List.lookup_cons, h, beq_eq_false_iff_ne.mpr (Ne.symm h)]

theorem lookup_eq_none_iff_gen {β : Type} (m : List (String × β)) (k : String) :
    List.lookup k m = none ↔ ∀ p ∈ m, p.1 ≠ k := by
  induction m with
  | nil => simp
  | cons p rest ih =>
      obtain ⟨k', v'⟩ := p
      by_cases h : k' = k
      · subst h
        simp [lookup_cons_gen]
      · simp [lookup_cons_gen, h, ih]

theorem lookup_append_gen {β : Type} (m₁ m₂ : List (String × β)) (k : String) :
    List.lookup k (m₁ ++ m₂) = (List.lookup k m₁).or (List.lookup k m₂) := by
  induction m₁ with
  | nil => simp
  | cons p rest ih =>
      obtain ⟨k', v'⟩ := p
      by_cases h : k' = k
      · subst h
        simp [lookup_cons_gen]
      · simp [lookup_cons_gen, h, ih]

theorem lookup_setService_map (m : List (String × Service)) (k n : String) (v : Service) :
    List.lookup n (m.map (fun p => if p.1 == k then (p.1, v) else p)) =
      (List.lookup n m).map (fun w => if k = n then v else w) := by
  induction m with
  | nil => rfl
  | cons p rest ih =>
      obtain ⟨k', w⟩ := p
      simp only [List.map_cons]
      by_cases hk' : k' = k
      · subst hk'
        simp only [beq_self_eq_true, if_true]
        rw [lookup_cons_gen, lookup_cons_gen]
        by_cases hn : k' = n
        · rw [if_pos hn, if_pos hn]
          subst hn
          simp
        · rw [if_neg hn, if_neg hn, ih]
      · simp only [beq_eq_false_iff_ne.mpr hk', Bool.false_eq_true, if_false]
        rw [lookup_cons_gen, lookup_cons_gen]
        by_cases hn : k' = n
        · rw [if_pos hn, if_pos hn]
          subst hn
          simp only [Option.map_some']
          rw [if_neg (fun he : k = k' => hk' he.symm)]
        · rw [if_neg hn, if_neg hn, ih]

theorem lookup_setService (m : List (String × Service)) (k n : String) (v : Service) :
    List.lookup n (setService m k v) = if k = n then some v else List.lookup n m := by
  rw [setService]
  by_cases hany : m.any (fun p => p.1 == k) = true
  · rw [if_pos hany, lookup_setService_map]
    by_cases hn : k = n
    · subst hn
      rw [List.any_eq_true] at hany
      obtain ⟨p, hp, hpk⟩ := hany
      rw [beq_iff_eq] at hpk
      cases hl : List.lookup k m with
      | some w => simp
      | none =>
          rw [lookup_eq_none_iff_gen] at hl
          exact absurd hpk (hl p hp)
    · rw [if_neg hn]
      cases List.lookup n m with
      | some w => simp [hn]
      | none => rfl
  · rw [if_neg hany]
    rw [Bool.not_eq_true, List.any_eq_false] at hany
    have hnone : List.lookup k m = none := by
      rw [lookup_eq_none_iff_gen]
      intro p hp he
      exact absurd (by simp [he]) (hany p hp)
    by_cases hn : k = n
    · subst hn
      rw [if_pos rfl, lookup_append_gen, hnone]
      simp [lookup_cons_gen]
    · rw [if_neg hn, lookup_append_gen]
      cases hl : List.lookup n m with
      | some w => rfl
      | none => simp [lookup_cons_gen, hn]

theorem lookup_foldl_setService :
    ∀ (l acc : List (String × Service)) (n : String),
      List.lookup n (l.foldl (fun a p => setService a p.1 p.2) acc) =
        (List.lookup n l.reverse).or (List.lookup n acc)
  | [], acc, n => by simp
  | p :: t, acc, n => by
      obtain ⟨k, v⟩ := p
      rw [List.foldl_cons, lookup_foldl_setService t _ n]
      rw [List.reverse_cons, lookup_append_gen, lookup_setService]
      cases hl : List.lookup n t.reverse with
      | some w => rfl
      | none =>
          by_cases hn : k = n
          · subst hn
            simp [lookup_cons_gen]
          · simp [lookup_cons_gen, hn]

theorem GetServices_aux :
    ∀ (docs : List (Option Value)) (acc : List (String × Service)),
      docs.foldl (fun services body =>
        (docServices body).foldl (fun a p => setService a p.1 p.2) services) acc =
      (docs.flatMap docServices).foldl (fun a p => setService a p.1 p.2) acc
  | [], acc => by simp
  | d :: ds, acc => by
      rw [List.foldl_cons, GetServices_aux ds _]
      rw [List.flatMap_cons, List.foldl_append]

/-- Flattening is last-write-wins: looking a service name up in the
flattened map is looking it up in the reversed concatenation of all
documents' service lists. -/
theorem getServices_last_wins (cf : ComposeFile) (n : String) :
    List.lookup n cf.GetServices =
      List.lookup n (cf.Documents.flatMap docServices).reverse := by
  rw [ComposeFile.GetServices, GetServices_aux, lookup_foldl_setService]
  simp

/-! ## The positional diff, walked by index -/

theorem zip_filterMap_eq_range {β : Type} (mk : String → String → β) :
    ∀ (l₁ l₂ : List String),
      (l₁.zip l₂).filterMap
          (fun p => if p.1 ≠ p.2 then some (mk p.1 p.2) else none) =
        (List.range (min l₁.length l₂.length)).filterMap (fun i =>
          if l₁.getD i "" ≠ l₂.getD i "" then some (mk (l₁.getD i "") (l₂.getD i ""))
          else none)
  | [], l₂ => by simp
  | a :: t₁, [] => by simp
  | a :: t₁, b :: t₂ => by
      rw [List.zip_cons_cons]
      have hmin : min (a :: t₁).length (b :: t₂).length = (min t₁.length t₂.length) + 1 := by
        simp only [List.length_cons]
        exact Nat.succ_min_succ t₁.length t₂.length
      rw [hmin, List.range_succ_eq_map, List.filterMap_cons, List.filterMap_cons,
        List.filterMap_map]
      have hfun : ∀ i ∈ List.range (min t₁.length t₂.length),
          ((fun i => if (a :: t₁).getD i "" ≠ (b :: t₂).getD i ""
              then some (mk ((a :: t₁).getD i "") ((b :: t₂).getD i "")) else none) ∘
            Nat.succ) i =
          (fun i => if t₁.getD i "" ≠ t₂.getD i ""
              then some (mk (t₁.getD i "") (t₂.getD i "")) else none) i := by
        intro i _
        simp only [Function.comp_apply, List.getD_cons_succ]
      rw [List.filterMap_congr hfun, zip_filterMap_eq_range mk t₁ t₂]
      by_cases hab : a = b
      · subst hab
        simp
      · simp [hab]

/-! ## Per-field violation counts and exactness -/

theorem isAlphabetized_short (items : List Value) (ext : Value → String)
    (h : items.length ≤ 1) : isAlphabetized items ext = true := by
  rw [isAlphabetized, if_pos (by omega)]

theorem envAlphaViolations_len (name : String) (s : Service) (cfg : Config) :
    (envAlphaViolations name s cfg).length ≤ 1 := by
  rw [envAlphaViolations]
  split
  · split <;> (try split) <;> simp
  · simp

theorem volAlphaViolations_len (name : String) (s : Service) (cfg : Config) :
    (volAlphaViolations name s cfg).length ≤ 1 := by
  rw [volAlphaViolations]
  split
  · split <;> (try split) <;> simp
  · simp

theorem labelAlphaViolations_len (name : String) (s : Service) (cfg : Config) :
    (labelAlphaViolations name s cfg).length ≤ 1 := by
  rw [labelAlphaViolations]
  split
  · split <;> (try split) <;> simp
  · simp

theorem envAlphaViolations_seq_iff (name : String) (s : Service) (cfg : Config)
    (items : List Value) (hs : cfg.ShouldAlphabetize "environment" = true)
    (hl : List.lookup "environment" s.Config = some (.seq items)) :
    envAlphaViolations name s cfg = [] ↔
      List.Pairwise (keyLe extractEnvKey) items := by
  constructor
  · intro h
    cases hAl : isAlphabetized items extractEnvKey with
    | true => exact (isAlphabetized_iff _ _).mp hAl
    | false =>
        rw [envAlphaViolations, if_pos hs, hl] at h
        simp [hAl] at h
  · intro hp
    rw [envAlphaViolations, if_pos hs, hl]
    simp [(isAlphabetized_iff _ _).mpr hp]

theorem volAlphaViolations_seq_iff (name : String) (s : Service) (cfg : Config)
    (items : List Value) (hs : cfg.ShouldAlphabetize "volumes" = true)
    (hl : List.lookup "volumes" s.Config = some (.seq items)) :
    volAlphaViolations name s cfg = [] ↔
      List.Pairwise (keyLe extractVolumeKey) items := by
  constructor
  · intro h
    cases hAl : isAlphabetized items extractVolumeKey with
    | true => exact (isAlphabetized_iff _ _).mp hAl
    | false =>
        rw [volAlphaViolations, if_pos hs, hl] at h
        simp [hAl] at h
  · intro hp
    rw [volAlphaViolations, if_pos hs, hl]
    simp [(isAlphabetized_iff _ _).mpr hp]

theorem labelAlphaViolations_seq_iff (name : String) (s : Service) (cfg : Config)
    (items : List Value) (hs : cfg.ShouldAlphabetize "labels" = true)
    (hl : List.lookup "labels" s.Config = some (.seq items)) :
    labelAlphaViolations name s cfg = [] ↔
      List.Pairwise (keyLe extractLabelKey) items := by
  constructor
  · intro h
    cases hAl : isAlphabetized items extractLabelKey with
    | true => exact (isAlphabetized_iff _ _).mp hAl
    | false =>
        rw [labelAlphaViolations, if_pos hs, hl] at h
        simp [hAl] at h
  · intro hp
    rw [labelAlphaViolations, if_pos hs, hl]
    simp [(isAlphabetized_iff _ _).mpr hp]

/-! ## The validity flag -/

theorem bang_len_pos_iff (L : List Violation) :
    (!(L.length > 0) : Bool) = true ↔ L = [] := by
  cases L <;> simp

theorem Validate_valid_iff (file : ComposeFile) (cfg : Config) :
    (Validate file cfg).Valid = true ↔ (Validate file cfg).Violations = [] :=
  bang_len_pos_iff _

/-! ## Concrete fixtures for the claims -/

/-- The default policy with strict mode enabled. -/
def strictDefaultConfig : Config := { NewDefaultConfig with Strict := true }

/-- A policy whose canonical order lists a field twice. -/
def dupOrderConfig : Config := { NewDefaultConfig with FieldOrder := ["a", "a", "b"] }

/-- The default policy with environment alphabetization disabled. -/
def cfgNoEnvAlpha : Config :=
  { NewDefaultConfig with
      Alphabetization := { environment := false, volumes := true, labels := true } }

/-- Two canonical fields declared in the wrong order. -/
def svcOutOfOrder : SvcMap :=
  [("image", .str "nginx:latest"), ("container_name", .str "app")]

/-- A canonical field declared before an unknown field. -/
def svcUnknownDemo : SvcMap :=
  [("image", .str "nginx:latest"), ("custom_field", .str "x")]

/-- An unknown field followed by a canonical field. -/
def svcStrictDemo : SvcMap :=
  [("custom_field", .str "x"), ("image", .str "nginx:latest")]

/-- A service for the duplicate-canonical-order policy. -/
def svcDupDemo : SvcMap := [("a", .str "1"), ("b", .str "2")]

/-- The C5 scenario: `[image, container_name, environment]`. -/
def svcScenarioC5 : Service :=
  { Name := "web"
    FieldOrder := ["image", "container_name", "environment"]
    Config := [("image", .str "nginx:latest"), ("container_name", .str "web-server"),
               ("environment", .seq [.str "KEY=value"])]
    Line := 1
    Column := 1 }

/-- The C7 scenario: an otherwise-compliant service with `custom_field`. -/
def svcScenarioC7 : Service :=
  { Name := "web"
    FieldOrder := ["container_name", "image", "custom_field"]
    Config := [("container_name", .str "app"), ("image", .str "nginx:latest"),
               ("custom_field", .str "x")]
    Line := 1
    Column := 1 }

/-- The C8 scenario document: unsorted environment entries. -/
def contentC8 : List (String × Value) :=
  [("services", .map [("web", .map
    [("environment", .seq [.str "ZZZ=v1", .str "AAA=v2"])])])]

/-- The C8 scenario as a parsed file. -/
def fileC8 : ComposeFile :=
  { Path := "docker-compose.yml", Documents := [some (.map contentC8)] }

/-- Two documents defining the same service name differently. -/
def fileC9 : ComposeFile :=
  { Path := "multi.yml"
    Documents :=
      [some (.map [("services", .map [("web", .map [("image", .str "nginx:1")])])]),
       some (.map [("services", .map [("web", .map [("image", .str "nginx:2")])])])] }

/-- A compliant document for the idempotence witness. -/
def contentC2 : List (String × Value) :=
  [("services", .map [("web", .map
    [("container_name", .str "app"), ("image", .str "nginx:latest")])])]

/-!
## The claims
-/

/-- C4: the code never records a "reordered" Fix Record.  The service
declares `image` before `container_name`, which the fixer's own
positional check (`isFieldOrderCorrect` on the original map) judges
incorrect, yet `fixService` reports `fixed = false` with no change
message, and `FixBytes` returns the document unchanged — because
`isFieldOrderCorrect` is called only after every canonical field has
been deleted from the map, so it can never return `false` (the final
conjunct states this root cause in general). -/
theorem claim_C4 :
    isFieldOrderCorrect svcOutOfOrder DefaultFieldOrder = false ∧
    (fixService "web" svcOutOfOrder DefaultFieldOrder NewDefaultConfig).fixed = false ∧
    (fixService "web" svcOutOfOrder DefaultFieldOrder NewDefaultConfig).changes = [] ∧
    FixBytes [("services", .map [("web", .map svcOutOfOrder)])] NewDefaultConfig =
      ([("services", .map [("web", .map svcOutOfOrder)])], []) ∧
    ∀ (svc : SvcMap) (fo : List String),
      isFieldOrderCorrect (svc.filter (fun p => !(isInFieldOrder p.1 fo))) fo = true :=
  ⟨rfl, rfl, rfl, rfl, fun svc fo => isFieldOrderCorrect_filtered svc fo⟩

/-- C10: `Validate` clears the `Valid` flag exactly when the violation
list is non-empty. -/
theorem claim_C10 :
    ∀ (file : ComposeFile) (cfg : Config),
      (Validate file cfg).Valid = true ↔ (Validate file cfg).Violations = [] :=
  Validate_valid_iff

/-- C9: the flattened name-to-service map is last-write-wins across
documents: every lookup equals the lookup in the reversed concatenation
of all documents' service lists, and in the concrete two-document file
the second document's `web` wins. -/
theorem claim_C9 :
    (∀ (cf : ComposeFile) (n : String),
      List.lookup n cf.GetServices =
        List.lookup n (cf.Documents.flatMap docServices).reverse) ∧
    List.lookup "web" fileC9.GetServices =
      some (serviceOfFields "web" [("image", Value.str "nginx:2")]) :=
  ⟨getServices_last_wins, rfl⟩

/-- C8: with environment alphabetization disabled, the unsorted entries
`["ZZZ=v1","AAA=v2"]` produce no violation, `FixBytes` leaves the
document untouched with no Fix Record, and the field's value is
unchanged by the alphabetizer. -/
theorem claim_C8 :
    (Validate fileC8 cfgNoEnvAlpha).Valid = true ∧
    (Validate fileC8 cfgNoEnvAlpha).Violations = [] ∧
    FixBytes contentC8 cfgNoEnvAlpha = (contentC8, []) ∧
    alphabetizeField "environment" (.seq [.str "ZZZ=v1", .str "AAA=v2"]) cfgNoEnvAlpha =
      (.seq [.str "ZZZ=v1", .str "AAA=v2"], false) :=
  ⟨rfl, rfl, rfl, rfl⟩

/-- The order violation produced by the positional walk. -/
def mkOrderViolation (name : String) (s : Service) (a e : String) : Violation :=
  { type := "order", Service := name, Field := a
    Message := s!"field \x27{a}\x27 is out of order"
    Expected := e, Actual := a, Line := s.Line, Column := s.Column }

/-- C5: field-order checking is positional.  `validateFieldOrder` is the
positional diff of the declared canonical fields (`actual`) against the
canonical order restricted to present fields (`expected`), plus the
strict-mode extras; the diff emits one `order` violation per index
`i < min |actual| |expected|` where the two lists disagree, recording
the actual field and the expected field at that index.  In the scenario
`[image, container_name, environment]` under the default policy this
yields exactly two violations — `image` expected `container_name`, then
`container_name` expected `image` — and none for `environment`. -/
theorem claim_C5 :
    (∀ (name : String) (s : Service) (fo : List String) (cfg : Config),
      validateFieldOrder name s fo cfg =
        positionalViolations name s fo ++ strictViolationsOf name s fo cfg) ∧
    (∀ (name : String) (s : Service) (fo : List String),
      positionalViolations name s fo =
        (List.range (min (actualFieldsOf s fo).length (expectedFieldsOf s fo).length)).filterMap
          (fun i =>
            if (actualFieldsOf s fo).getD i "" ≠ (expectedFieldsOf s fo).getD i "" then
              some (mkOrderViolation name s
                ((actualFieldsOf s fo).getD i "") ((expectedFieldsOf s fo).getD i ""))
            else none)) ∧
    (validateFieldOrder "web" svcScenarioC5 DefaultFieldOrder NewDefaultConfig).map
        (fun v => (v.type, v.Field, v.Expected)) =
      [("order", "image", "container_name"), ("order", "container_name", "image")] :=
  ⟨fun name s fo cfg => validateFieldOrder_eq name s fo cfg,
   fun name s fo =>
     zip_filterMap_eq_range (mkOrderViolation name s)
       (actualFieldsOf s fo) (expectedFieldsOf s fo),
   rfl⟩

/-- The strict-mode violation for an unknown field. -/
def mkStrictViolation (name field : String) : Violation :=
  { type := "order", Service := name, Field := field
    Message := s!"field \x27{field}\x27 is not allowed in strict mode"
    Expected := "", Actual := "", Line := 0, Column := 0 }

/-- C7: strict mode flags unknown fields.  When `Strict` is on, the
order check appends one violation per declared field absent from the
canonical order (message "field 'X' is not allowed in strict mode");
when `Strict` is off those fields are ignored.  In the C7 scenario the
service is compliant under the default policy but gains exactly the one
`custom_field` violation when strict mode is switched on. -/
theorem claim_C7 :
    (∀ (name : String) (s : Service) (fo : List String) (cfg : Config),
      cfg.Strict = true →
        validateFieldOrder name s fo cfg =
          positionalViolations name s fo ++
            (s.FieldOrder.filter (fun field => !(isInFieldOrder field fo))).map
              (mkStrictViolation name)) ∧
    (∀ (name : String) (s : Service) (fo : List String) (cfg : Config),
      cfg.Strict = false →
        validateFieldOrder name s fo cfg = positionalViolations name s fo) ∧
    validateFieldOrder "web" svcScenarioC7 DefaultFieldOrder NewDefaultConfig = [] ∧
    validateFieldOrder "web" svcScenarioC7 DefaultFieldOrder strictDefaultConfig =
      [mkStrictViolation "web" "custom_field"] := by
  refine ⟨fun name s fo cfg h => ?_, fun name s fo cfg h => ?_, rfl, rfl⟩
  · rw [validateFieldOrder_eq, strictViolationsOf, h]
    rfl
  · rw [validateFieldOrder_eq, strictViolationsOf, h]
    simp

/-- Witness for C7: both general clauses instantiated at the scenario,
with the strictness hypotheses discharged on the concrete policies. -/
theorem claim_C7_witness :
    validateFieldOrder "web" svcScenarioC7 DefaultFieldOrder strictDefaultConfig =
      positionalViolations "web" svcScenarioC7 DefaultFieldOrder ++
        (svcScenarioC7.FieldOrder.filter
          (fun field => !(isInFieldOrder field DefaultFieldOrder))).map
          (mkStrictViolation "web") ∧
    validateFieldOrder "web" svcScenarioC7 DefaultFieldOrder NewDefaultConfig =
      positionalViolations "web" svcScenarioC7 DefaultFieldOrder :=
  ⟨claim_C7.1 "web" svcScenarioC7 DefaultFieldOrder strictDefaultConfig rfl,
   claim_C7.2.1 "web" svcScenarioC7 DefaultFieldOrder NewDefaultConfig rfl⟩

/-- A clearly non-alphabetized environment list. -/
def svcEnvBad : Service :=
  serviceOfMap "web" [("environment", .seq [.str "ZZZ=1", .str "AAA=2"])]

/-- C6: alphabetization checking is per-field, not per-pair.  Each of
the three alphabetizable fields contributes at most one violation; the
check succeeds exactly when the extracted keys are pairwise
non-decreasing under case-insensitive comparison (so for a sequence
field the violation list is empty iff the items are pairwise sorted);
and lists of length at most one are always accepted. -/
theorem claim_C6 :
    (∀ (name : String) (s : Service) (cfg : Config),
      (envAlphaViolations name s cfg).length ≤ 1 ∧
      (volAlphaViolations name s cfg).length ≤ 1 ∧
      (labelAlphaViolations name s cfg).length ≤ 1 ∧
      (validateAlphabetization name s cfg).length ≤ 3) ∧
    (∀ (items : List Value) (ext : Value → String),
      isAlphabetized items ext = true ↔ List.Pairwise (keyLe ext) items) ∧
    (∀ (name : String) (s : Service) (cfg : Config) (items : List Value),
      cfg.ShouldAlphabetize "environment" = true →
      List.lookup "environment" s.Config = some (.seq items) →
      (envAlphaViolations name s cfg = [] ↔
        List.Pairwise (keyLe extractEnvKey) items)) ∧
    (∀ (items : List Value) (ext : Value → String),
      items.length ≤ 1 → isAlphabetized items ext = true) := by
  refine ⟨fun name s cfg => ⟨envAlphaViolations_len name s cfg,
      volAlphaViolations_len name s cfg, labelAlphaViolations_len name s cfg, ?_⟩,
    fun items ext => isAlphabetized_iff items ext,
    fun name s cfg items hs hl => envAlphaViolations_seq_iff name s cfg items hs hl,
    fun items ext h => isAlphabetized_short items ext h⟩
  have h1 := envAlphaViolations_len name s cfg
  have h2 := volAlphaViolations_len name s cfg
  have h3 := labelAlphaViolations_len name s cfg
  rw [validateAlphabetization]
  simp only [List.length_append]
  omega

/-- Witness for C6: the per-field iff instantiated at a concrete
environment list (hypotheses discharged by evaluation), and the
boundary clause accepting a one-element list. -/
theorem claim_C6_witness :
    (envAlphaViolations "web" svcEnvBad NewDefaultConfig = [] ↔
      List.Pairwise (keyLe extractEnvKey) [Value.str "ZZZ=1", Value.str "AAA=2"]) ∧
    isAlphabetized [Value.str "A=1"] extractEnvKey = true :=
  ⟨claim_C6.2.2.1 "web" svcEnvBad NewDefaultConfig
      [Value.str "ZZZ=1", Value.str "AAA=2"] rfl rfl,
   claim_C6.2.2.2 [Value.str "A=1"] extractEnvKey (by decide)⟩

/-- The out-of-order service wrapped into a document. -/
def contentDemo : List (String × Value) :=
  [("services", .map [("web", .map svcOutOfOrder)])]

/-!
## Presentation robustness

Go maps carry no iteration order, so a property of the running program
that involves "the order of a map" must hold for every order the
runtime may present the map in.  The lemmas here transport verdicts
along re-presentations of a map: permutations, and lookup-equal
re-orderings.
-/

theorem mem_of_lookup_some {m : SvcMap} {k : String} {v : Value}
    (h : List.lookup k m = some v) : (k, v) ∈ m := by
  induction m with
  | nil => simp [List.lookup] at h
  | cons p rest ih =>
      obtain ⟨k0, v0⟩ := p
      rw [lookup_cons_svc] at h
      by_cases hk : k0 = k
      · rw [if_pos hk] at h
        subst hk
        cases h
        exact List.mem_cons_self _ _
      · rw [if_neg hk] at h
        exact List.mem_cons_of_mem _ (ih h)

/-- Two presentations of the same duplicate-free map agree on every
lookup. -/
theorem lookup_of_perm {l m : SvcMap} (hnd : (m.map (fun p => p.1)).Nodup)
    (hperm : List.Perm l m) (f : String) :
    List.lookup f l = List.lookup f m := by
  have hndl : (l.map (fun p => p.1)).Nodup :=
    ((hperm.map (fun p => p.1)).nodup_iff).mpr hnd
  cases hm : List.lookup f m with
  | none =>
      rw [lookup_eq_none_iff] at hm ⊢
      intro p hp
      exact hm p (hperm.mem_iff.mp hp)
  | some v =>
      exact lookup_some_of_mem_nodup hndl (hperm.mem_iff.mpr (mem_of_lookup_some hm))

/-- With strict mode on, any presentation of a map containing a field
absent from the canonical order fails the order check. -/
theorem strict_unknown_not_clean {name : String} {cfg : Config} {fo : List String}
    {l : SvcMap} {f : String} (hstrict : cfg.Strict = true)
    (hmem : f ∈ l.map (fun p => p.1)) (hf : isInFieldOrder f fo = false) :
    validateFieldOrder name (serviceOfMap name l) fo cfg ≠ [] := by
  intro h
  rw [validateFieldOrder_eq] at h
  have h2 := (List.append_eq_nil.mp h).2
  rw [strictViolationsOf, hstrict] at h2
  simp only [if_true] at h2
  rw [List.map_eq_nil_iff] at h2
  rw [List.filter_eq_nil_iff] at h2
  have := h2 f hmem
  rw [hf] at this
  simp at this

/-- Under the duplicated canonical order `[a, a, b]`, no presentation of
the fixed `{a, b}` map passes the positional check: the expected
sequence lists `a` at both of the first two positions, while one of the
first two actual fields is `b`. -/
theorem dup_order_never_clean (l : SvcMap)
    (hperm : List.Perm l [("a", Value.str "1"), ("b", Value.str "2")]) :
    validateFieldOrder "s" (serviceOfMap "s" l)
      (dupOrderConfig.GetFieldOrder "s") dupOrderConfig ≠ [] := by
  intro h
  have hkeys : List.Perm (l.map (fun p => p.1)) ["a", "b"] := by
    simpa using hperm.map (fun p => p.1)
  have hactual : actualFieldsOf (serviceOfMap "s" l)
      (dupOrderConfig.GetFieldOrder "s") = l.map (fun p => p.1) := by
    rw [actualFieldsOf]
    apply List.filter_eq_self.mpr
    intro x hx
    have hx2 : x = "a" ∨ x = "b" := by simpa using hkeys.mem_iff.mp hx
    rcases hx2 with rfl | rfl <;> decide
  have hexp : expectedFieldsOf (serviceOfMap "s" l)
      (dupOrderConfig.GetFieldOrder "s") = ["a", "a", "b"] := by
    rw [expectedFieldsOf]
    have ha : (List.lookup "a" l).isSome = true := by
      rw [lookup_isSome_iff_mem]
      exact hkeys.mem_iff.mpr (by decide)
    have hb : (List.lookup "b" l).isSome = true := by
      rw [lookup_isSome_iff_mem]
      exact hkeys.mem_iff.mpr (by decide)
    show List.filter (fun field => (List.lookup field l).isSome) ["a", "a", "b"] = _
    simp [List.filter_cons, ha, hb]
  rw [validateFieldOrder_eq] at h
  have hpos := (List.append_eq_nil.mp h).1
  rw [positionalViolations, List.filterMap_eq_nil_iff, hactual, hexp] at hpos
  have hlen : (l.map (fun p => p.1)).length = 2 := by
    simpa using hkeys.length_eq
  obtain ⟨c0, c1, hc⟩ := List.length_eq_two.mp hlen
  rw [hc] at hpos
  simp only [List.zip_cons_cons, List.zip_nil_left, List.mem_cons,
    List.not_mem_nil, or_false, List.mem_singleton] at hpos
  have h0 := hpos _ (Or.inl rfl)
  have h1 := hpos _ (Or.inr rfl)
  have hc0 : c0 = "a" := by
    by_contra hne
    simp [hne] at h0
  have hc1 : c1 = "a" := by
    by_contra hne
    simp [hne] at h1
  have hbmem : "b" ∈ l.map (fun p => p.1) := hkeys.mem_iff.mpr (by decide)
  rw [hc, hc0, hc1] at hbmem
  simp at hbmem

/-- No special field of the service map is map-valued.  Go randomizes
map `range` order, so on map-valued `environment`/`labels` both the
checker's and the fixer's verdicts depend on an order the program does
not control (the repository documents map-format fields as not reliably
checkable for this reason); idempotence is claimed only away from
them. -/
def NoMapSpecial (svc : SvcMap) : Prop :=
  ∀ f, (f = "environment" ∨ f = "volumes" ∨ f = "labels") →
    ∀ m, List.lookup f svc ≠ some (Value.map m)

/-- `NoMapSpecial` for every mapping-valued service of a document. -/
def ContentNoMapSpecials (content : List (String × Value)) : Prop :=
  ∀ services, List.lookup "services" content = some (.map services) →
    ∀ p ∈ services, ∀ m, p.2 = Value.map m → NoMapSpecial m

/-- Every mapping-valued service of the document passes the
alphabetization check — a lookup-only property, hence independent of
the order the runtime presents each service map in. -/
def AllServicesAlphaClean (content : List (String × Value)) (cfg : Config) : Prop :=
  ∀ services, List.lookup "services" content = some (.map services) →
    ∀ p ∈ services, ∀ m, p.2 = Value.map m →
      validateAlphabetization p.1 (serviceOfMap p.1 m) cfg = []

/-- Any presentation of the content of a `fixService` output passes the
alphabetization check. -/
theorem fixService_alpha_robust (name : String) (cfg : Config) (svc : SvcMap)
    (fo : List String) (hsvc : (svc.map (fun p => p.1)).Nodup) (l : SvcMap)
    (hq : ∀ f, List.lookup f l = List.lookup f (fixService name svc fo cfg).svc) :
    validateAlphabetization name (serviceOfMap name l) cfg = [] := by
  apply validateAlphabetization_nil_of
  · intro v' hl hs
    have hl' : (List.lookup "environment" svc).map
        (fun v => (alphabetizeField "environment" v cfg).1) = some v' := by
      rw [← fixService_lookup name cfg svc fo hsvc, ← hq "environment"]
      exact hl
    obtain ⟨v, _, rfl⟩ := Option.map_eq_some'.mp hl'
    exact (alphabetizeField_OK "environment" v cfg).1 rfl hs
  · intro v' hl hs
    have hl' : (List.lookup "volumes" svc).map
        (fun v => (alphabetizeField "volumes" v cfg).1) = some v' := by
      rw [← fixService_lookup name cfg svc fo hsvc, ← hq "volumes"]
      exact hl
    obtain ⟨v, _, rfl⟩ := Option.map_eq_some'.mp hl'
    exact (alphabetizeField_OK "volumes" v cfg).2.1 rfl hs
  · intro v' hl hs
    have hl' : (List.lookup "labels" svc).map
        (fun v => (alphabetizeField "labels" v cfg).1) = some v' := by
      rw [← fixService_lookup name cfg svc fo hsvc, ← hq "labels"]
      exact hl
    obtain ⟨v, _, rfl⟩ := Option.map_eq_some'.mp hl'
    exact (alphabetizeField_OK "labels" v cfg).2.2 rfl hs

/-- Re-running `fixService` on any presentation of its output reports no
fix, no change messages, and the same map content. -/
theorem fixService_second_run (name : String) (cfg : Config) (svc : SvcMap)
    (fo : List String) (hsvc : (svc.map (fun p => p.1)).Nodup) (l : SvcMap)
    (hlnd : (l.map (fun p => p.1)).Nodup)
    (hq : ∀ f, List.lookup f l = List.lookup f (fixService name svc fo cfg).svc) :
    (fixService name l fo cfg).fixed = false ∧
      (fixService name l fo cfg).changes = [] ∧
      ∀ f, List.lookup f (fixService name l fo cfg).svc = List.lookup f l := by
  have halpha := fixService_alpha_robust name cfg svc fo hsvc l hq
  have h1 := fixService_not_fixed name cfg l fo hlnd halpha
  refine ⟨h1.1, h1.2, fun f => ?_⟩
  rw [fixService_lookup name cfg l fo hlnd f, hq f,
    fixService_lookup name cfg svc fo hsvc f]
  cases hv : List.lookup f svc with
  | none => rfl
  | some v =>
      simp only [Option.map_some']
      rw [alphabetizeField_idem_fst]

/-- A document all of whose services pass the alphabetization check is
returned by `FixBytes` unchanged, with no Fix Records: every per-field
change flag is false, so the input is handed back as is. -/
theorem FixBytes_alpha_clean (cfg : Config) (content : List (String × Value))
    (hwf : ContentWF content) (hc : AllServicesAlphaClean content cfg) :
    FixBytes content cfg = (content, []) := by
  cases hl : List.lookup "services" content with
  | none =>
      rw [FixBytes, hl]
  | some v =>
      cases v with
      | map services =>
          rw [FixBytes, hl]
          have hany : (services.map (fixServiceEntry cfg)).any (fun r => r.2.2) = false := by
            rw [List.any_eq_false]
            intro r hr
            rcases List.mem_map.mp hr with ⟨p, hp, rfl⟩
            obtain ⟨n, w⟩ := p
            cases w with
            | map m =>
                have hm := hwf services hl (n, Value.map m) hp m rfl
                have hclean := hc services hl (n, Value.map m) hp m rfl
                have := fixService_not_fixed n cfg m (cfg.GetFieldOrder n) hm hclean
                show ¬(fixServiceEntry cfg (n, Value.map m)).2.2 = true
                rw [fixServiceEntry]
                simp only
                rw [this.1]
                simp
            | str s => simp [fixServiceEntry]
            | boolean b => simp [fixServiceEntry]
            | intv k => simp [fixServiceEntry]
            | null => simp [fixServiceEntry]
            | seq l => simp [fixServiceEntry]
          simp only [fixBytesCore]
          rw [hany]
          rfl
      | str s => rw [FixBytes, hl]
      | boolean b => rw [FixBytes, hl]
      | intv k => rw [FixBytes, hl]
      | null => rw [FixBytes, hl]
      | seq l => rw [FixBytes, hl]

/-- The demo map has no map-valued special field. -/
theorem svcOutOfOrder_noMapSpecial : NoMapSpecial svcOutOfOrder := by
  intro f hf m h
  rcases hf with rfl | rfl | rfl <;>
    exact Option.noConfusion (show (none : Option Value) = some (Value.map m) from h)

/-- The demo document is well-formed: its one service map has distinct
keys. -/
theorem contentDemo_wf : ContentWF contentDemo := by
  intro services hl
  have h1 : Value.map [("web", Value.map svcOutOfOrder)] = Value.map services :=
    Option.some.inj hl
  have h2 : [("web", Value.map svcOutOfOrder)] = services := by injection h1
  intro p hp m hm
  rw [← h2, List.mem_singleton] at hp
  subst hp
  have h3 : Value.map svcOutOfOrder = Value.map m := hm
  have h4 : svcOutOfOrder = m := by injection h3
  rw [← h4]
  decide

/-- The demo document has no map-valued special field. -/
theorem contentDemo_noMapSpecials : ContentNoMapSpecials contentDemo := by
  intro services hl
  have h1 : Value.map [("web", Value.map svcOutOfOrder)] = Value.map services :=
    Option.some.inj hl
  have h2 : [("web", Value.map svcOutOfOrder)] = services := by injection h1
  intro p hp m hm
  rw [← h2, List.mem_singleton] at hp
  subst hp
  have h3 : Value.map svcOutOfOrder = Value.map m := hm
  have h4 : svcOutOfOrder = m := by injection h3
  rw [← h4]
  exact svcOutOfOrder_noMapSpecial

/-- C1: soundness of fix fails in the program.  `fixService` keeps
fields absent from the canonical order, so under a strict policy the
re-check still reports them — in every presentation (permutation) of
the fixed map, since Go maps give the checker no canonical order to
see; likewise a policy whose canonical order repeats a field can never
be satisfied by the fixed map, in any presentation.  (Independently,
`fixService` discards the field order it computes into an unordered Go
map and `yaml.Marshal` chooses the serialized key order, so positional
compliance of the rewritten file is outside the program's control
altogether.) -/
theorem claim_C1 :
    (∀ l : SvcMap,
      List.Perm l (fixService "web" svcStrictDemo
          (strictDefaultConfig.GetFieldOrder "web") strictDefaultConfig).svc →
      validateFieldOrder "web" (serviceOfMap "web" l)
        (strictDefaultConfig.GetFieldOrder "web") strictDefaultConfig ≠ []) ∧
    (∀ l : SvcMap,
      List.Perm l (fixService "s" svcDupDemo
          (dupOrderConfig.GetFieldOrder "s") dupOrderConfig).svc →
      validateFieldOrder "s" (serviceOfMap "s" l)
        (dupOrderConfig.GetFieldOrder "s") dupOrderConfig ≠ []) := by
  constructor
  · intro l hperm
    have hmem : "custom_field" ∈ l.map (fun p => p.1) :=
      List.mem_map.mpr ⟨("custom_field", Value.str "x"),
        hperm.mem_iff.mpr (by decide), rfl⟩
    exact strict_unknown_not_clean rfl hmem (by decide)
  · intro l hperm
    have h2 : (fixService "s" svcDupDemo
        (dupOrderConfig.GetFieldOrder "s") dupOrderConfig).svc =
        [("a", Value.str "1"), ("b", Value.str "2")] := rfl
    rw [h2] at hperm
    exact dup_order_never_clean l hperm

/-- Concrete evaluation at the failing inputs: in the model's own
presentation of the two fixed maps the re-check reports exactly one
violation each (a strict-mode violation for `custom_field`, and a
positional violation under the duplicated canonical order). -/
theorem claim_C1_counterexample :
    (validateFieldOrder "web"
        (serviceOfMap "web"
          (fixService "web" svcStrictDemo
            (strictDefaultConfig.GetFieldOrder "web") strictDefaultConfig).svc)
        (strictDefaultConfig.GetFieldOrder "web") strictDefaultConfig).length = 1 ∧
    (validateFieldOrder "s"
        (serviceOfMap "s"
          (fixService "s" svcDupDemo
            (dupOrderConfig.GetFieldOrder "s") dupOrderConfig).svc)
        (dupOrderConfig.GetFieldOrder "s") dupOrderConfig).length = 1 :=
  ⟨rfl, rfl⟩

/-- Witness for C1: both clauses instantiated at the identity
presentation of the fixed maps. -/
theorem claim_C1_witness :
    validateFieldOrder "web"
        (serviceOfMap "web"
          (fixService "web" svcStrictDemo
            (strictDefaultConfig.GetFieldOrder "web") strictDefaultConfig).svc)
        (strictDefaultConfig.GetFieldOrder "web") strictDefaultConfig ≠ [] ∧
    validateFieldOrder "s"
        (serviceOfMap "s"
          (fixService "s" svcDupDemo
            (dupOrderConfig.GetFieldOrder "s") dupOrderConfig).svc)
        (dupOrderConfig.GetFieldOrder "s") dupOrderConfig ≠ [] :=
  ⟨claim_C1.1 _ (List.Perm.refl _), claim_C1.2 _ (List.Perm.refl _)⟩

/-- C2 (amended): idempotence of fix, stated robustly over map
presentations and away from map-valued special fields (on those, Go's
randomized map iteration makes the fixer's change detection
nondeterministic — a documented known limitation).  (1) Re-running
`fixService` on any presentation of its output reports `fixed = false`,
no change messages, and the same map content; (2) a document all of
whose services pass the alphabetization check is returned by `FixBytes`
unchanged with no Fix Records; (3) in particular a fully compliant
document is returned unchanged; (4) a second `FixBytes` run returns the
first run's output unchanged with no records.  The claim's further
clause that fixing an already-compliant service leaves its corrected
sequence unchanged is refuted by the counterexample: `fixService`
relocates unknown fields even when it reports `fixed = false`; only the
`FixBytes` wrapper, which discards the rebuilt maps when no service
reports a fix, returns compliant documents unchanged. -/
theorem claim_C2 :
    (∀ (name : String) (cfg : Config) (svc : SvcMap) (fo : List String) (l : SvcMap),
      NoMapSpecial svc →
      (svc.map (fun p => p.1)).Nodup → (l.map (fun p => p.1)).Nodup →
      (∀ f, List.lookup f l = List.lookup f (fixService name svc fo cfg).svc) →
      (fixService name l fo cfg).fixed = false ∧
        (fixService name l fo cfg).changes = [] ∧
        ∀ f, List.lookup f (fixService name l fo cfg).svc = List.lookup f l) ∧
    (∀ (cfg : Config) (content : List (String × Value)),
      ContentWF content → ContentNoMapSpecials content →
      AllServicesAlphaClean content cfg →
      FixBytes content cfg = (content, [])) ∧
    (∀ (cfg : Config) (content : List (String × Value)),
      ContentWF content → ContentNoMapSpecials content →
      AllServicesCompliant content cfg →
      FixBytes content cfg = (content, [])) ∧
    (∀ (cfg : Config) (content : List (String × Value)),
      ContentWF content → ContentNoMapSpecials content →
      FixBytes (FixBytes content cfg).1 cfg = ((FixBytes content cfg).1, [])) :=
  ⟨fun name cfg svc fo l _ hsvc hlnd hq =>
      fixService_second_run name cfg svc fo hsvc l hlnd hq,
   fun cfg content hwf _ hc => FixBytes_alpha_clean cfg content hwf hc,
   fun cfg content hwf _ hc => FixBytes_alpha_clean cfg content hwf
     (fun s hl p hp m hm => (hc s hl p hp m hm).2),
   fun cfg content hwf _ => FixBytes_idem cfg content hwf⟩

/-- A checker-compliant service map (`container_name` correctly placed,
one unknown field, nothing to alphabetize). -/
def svcCompliantUnknown : SvcMap :=
  [("container_name", Value.str "app"), ("custom_field", Value.str "x")]

/-- Counterexample to C2's "unchanged corrected sequence" clause: this
service is fully compliant under the default policy, and `fixService`
reports `fixed = false` — yet it rebuilds the map in a different order,
so the corrected sequence it returns is not the input sequence.  Only
the `FixBytes` wrapper, which ignores the rebuilt map when no service
reports a fix, leaves the document unchanged. -/
theorem claim_C2_counterexample :
    validateFieldOrder "web" (serviceOfMap "web" svcCompliantUnknown)
        (NewDefaultConfig.GetFieldOrder "web") NewDefaultConfig = [] ∧
    validateAlphabetization "web" (serviceOfMap "web" svcCompliantUnknown)
        NewDefaultConfig = [] ∧
    (fixService "web" svcCompliantUnknown (NewDefaultConfig.GetFieldOrder "web")
        NewDefaultConfig).fixed = false ∧
    (fixService "web" svcCompliantUnknown (NewDefaultConfig.GetFieldOrder "web")
        NewDefaultConfig).svc =
      [("custom_field", Value.str "x"), ("container_name", Value.str "app")] ∧
    (fixService "web" svcCompliantUnknown (NewDefaultConfig.GetFieldOrder "web")
        NewDefaultConfig).svc ≠ svcCompliantUnknown :=
  ⟨rfl, rfl, rfl, rfl, by decide⟩

/-- Witness for C2: the service-level clause at the identity
presentation of a concrete fixed map, and document-level idempotence on
the concrete out-of-order document, with all hypotheses discharged. -/
theorem claim_C2_witness :
    ((fixService "web"
        ((fixService "web" svcOutOfOrder DefaultFieldOrder NewDefaultConfig).svc)
        DefaultFieldOrder NewDefaultConfig).fixed = false ∧
      (fixService "web"
        ((fixService "web" svcOutOfOrder DefaultFieldOrder NewDefaultConfig).svc)
        DefaultFieldOrder NewDefaultConfig).changes = []) ∧
    FixBytes (FixBytes contentDemo NewDefaultConfig).1 NewDefaultConfig =
      ((FixBytes contentDemo NewDefaultConfig).1, []) := by
  constructor
  · have h := claim_C2.1 "web" NewDefaultConfig svcOutOfOrder DefaultFieldOrder
      ((fixService "web" svcOutOfOrder DefaultFieldOrder NewDefaultConfig).svc)
      svcOutOfOrder_noMapSpecial (by decide) (by decide) (fun f => rfl)
    exact ⟨h.1, h.2.1⟩
  · exact claim_C2.2.2.2 NewDefaultConfig contentDemo contentDemo_wf
      contentDemo_noMapSpecials

/-- C3 (amended): no data loss holds, without the placement clause.
For any service map with distinct keys, `fixService` permutes the key
list — no field is invented or dropped — and sends each field's value
through `alphabetizeField`, which preserves the value up to reordering
the entries of an alphabetized sequence or mapping.  The claim's
placement clause ("unknown fields appended after the canonical fields
in their original relative order") has no counterpart in the program:
`fixService` assembles its result in a Go map, which carries no order,
and `yaml.Marshal` chooses the serialized key order; even the code's
own construction sequence inserts the unknown fields before the
canonical ones — see the counterexample. -/
theorem claim_C3 (name : String) (cfg : Config) (svc : SvcMap) (fo : List String)
    (hsvc : (svc.map (fun p => p.1)).Nodup) :
    List.Perm (((fixService name svc fo cfg).svc).map (fun p => p.1))
        (svc.map (fun p => p.1)) ∧
    ∀ f v, List.lookup f svc = some v →
      List.lookup f (fixService name svc fo cfg).svc =
          some ((alphabetizeField f v cfg).1) ∧
        ValueSim v ((alphabetizeField f v cfg).1) := by
  refine ⟨fixService_keys_perm name cfg svc fo hsvc,
    fun f v hl => ⟨?_, alphabetizeField_sim f v cfg⟩⟩
  rw [fixService_lookup name cfg svc fo hsvc, hl]
  rfl

/-- Counterexample to C3's placement clause, at the level of the code's
own construction sequence (which the model tracks): fixing
`[image, custom_field]` under the default policy builds the keys as
`[custom_field, image]` — the unknown field is inserted before the
canonical one, not appended after it.  The program then hands even this
sequence to an unordered Go map and the YAML encoder, so the claimed
placement exists at no stage of the pipeline. -/
theorem claim_C3_counterexample :
    ((fixService "web" svcUnknownDemo DefaultFieldOrder NewDefaultConfig).svc).map
        (fun p => p.1) = ["custom_field", "image"] ∧
      ((fixService "web" svcUnknownDemo DefaultFieldOrder NewDefaultConfig).svc).map
        (fun p => p.1) ≠ ["image", "custom_field"] :=
  ⟨rfl, by decide⟩

/-- Witness for C3: the key permutation and a value lookup at a
concrete input, with the distinct-keys hypothesis discharged. -/
theorem claim_C3_witness :
    List.Perm
        (((fixService "web" svcUnknownDemo DefaultFieldOrder NewDefaultConfig).svc).map
          (fun p => p.1))
        (svcUnknownDemo.map (fun p => p.1)) ∧
    List.lookup "image"
        (fixService "web" svcUnknownDemo DefaultFieldOrder NewDefaultConfig).svc =
      some ((alphabetizeField "image" (Value.str "nginx:latest") NewDefaultConfig).1) :=
  ⟨(claim_C3 "web" NewDefaultConfig svcUnknownDemo DefaultFieldOrder (by decide)).1,
   ((claim_C3 "web" NewDefaultConfig svcUnknownDemo DefaultFieldOrder (by decide)).2
      "image" (Value.str "nginx:latest") rfl).1⟩
